import Mathlib

/-!
Verification of the go-ioc resolution-and-wiring engine.

Shallow embedding of the dependency-resolution core of the go-ioc
repository (packages `internal/wire` and `ioc`), together with proofs
about the embedded operations.

Modelling conventions:
* Go slices become Lean `List`s.
* Go `map`s become association lists (`List (K × V)`): insertion
  overwrites in place or appends at the end, lookup finds the unique
  binding, and iteration order is the list order.  Go leaves map
  iteration order unspecified; insertion order is the canonical
  deterministic refinement used throughout.
* Go `panic` and Go `error` returns become `Except`.
* Unbounded recursion is interpreted with an explicit fuel parameter;
  running out of fuel is a distinguished outcome, so a function that
  returns the fuel outcome for every fuel value does not terminate.
* `strings.ToLower` is modelled on ASCII letters, which covers all
  identifiers occurring in the source.
-/

/-! ## Basic utilities: association lists, string helpers -/

/-- Lookup in an association list (Go map read): first binding wins.
Keys are unique by construction because insertion overwrites. -/
def mapLookup {α : Type} (m : List (String × α)) (k : String) : Option α :=
  match m with
  | [] => none
  | (k', v) :: rest => if k' = k then some v else mapLookup rest k

/-- Insertion into an association list (Go map write): overwrite the
existing binding in place, or append a new binding at the end. -/
def mapInsert {α : Type} (m : List (String × α)) (k : String) (v : α) : List (String × α) :=
  match m with
  | [] => [(k, v)]
  | (k', v') :: rest => if k' = k then (k, v) :: rest else (k', v') :: mapInsert rest k v

/-- Deletion from an association list (Go `delete`). -/
def mapErase {α : Type} (m : List (String × α)) (k : String) : List (String × α) :=
  m.filter (fun kv => kv.1 ≠ k)

/-- Removal of a key from a list used as a set (Go `delete` on a
`map[string]bool` used as a set). -/
def setErase (l : List String) (k : String) : List String :=
  l.filter (fun x => x ≠ k)

/-- Concatenation map, preserving order (a Go nested loop that visits
`f a` for each `a` in turn). -/
def concatMap {α β : Type} (f : α → List β) : List α → List β
  | [] => []
  | a :: as => f a ++ concatMap f as

/-- ASCII lower-casing of one character (model of the action of Go
`strings.ToLower` on identifier characters). -/
def lowChar (c : Char) : Char :=
  if 65 ≤ c.toNat ∧ c.toNat ≤ 90 then Char.ofNat (c.toNat + 32) else c

/-- Model of Go `strings.ToLower` (ASCII). -/
def toLowerStr (s : String) : String :=
  String.mk (s.data.map lowChar)

/-- Go `parts[len(parts)-1]` on a split result. -/
def lastPart (l : List String) : String :=
  l.getLastD ""

/-- Splitting a character list on a separator character; used to model
Go `strings.Split` (all separators in the source are one character). -/
def splitCharList (c : Char) : List Char → List (List Char)
  | [] => [[]]
  | a :: as =>
    if a = c then [] :: splitCharList c as
    else
      match splitCharList c as with
      | [] => [[a]]
      | g :: gs => (a :: g) :: gs

/-- Model of Go `strings.Split(s, sep)` for a one-character separator. -/
def splitOnChar (c : Char) (s : String) : List String :=
  (splitCharList c s.data).map String.mk

/-- Model of Go `strings.HasSuffix`. -/
def strEndsWith (s suff : String) : Bool :=
  List.isSuffixOf suff.data s.data

/-- Model of Go `strings.Contains(s, sep)` for a one-character needle
(the only form occurring in the source). -/
def strContains (s : String) (c : Char) : Bool :=
  s.data.contains c

/-! ## Data model of `internal/wire` (`parse.go`)

`Component` and `Dependency` are the records produced by the component
extractor; only the fields present in the Go structs are kept (the Go
field `Type` is rendered `Typ` because `Type` is reserved in Lean). -/

/-- `wire.Dependency`: an autowired dependency field in a component. -/
structure Dependency where
  FieldName : String
  Typ : String
  Qualifier : String
deriving DecidableEq

/-- `wire.Component`: a parsed IoC component with its metadata. -/
structure Component where
  Name : String
  Typ : String
  Package : String
  Qualifier : String
  Implements : List String
  Dependencies : List Dependency
  PostConstruct : Bool
  PreDestroy : Bool
deriving DecidableEq

/-- The identity key used by the generator and the analyzer:
`comp.Package + "." + comp.Type`. -/
def ckey (c : Component) : String :=
  c.Package ++ "." ++ c.Typ

/-- Keys of a component list. -/
def keys (l : List Component) : List String :=
  l.map ckey

/-! ## Generator (`internal/wire/generator.go`) -/

/-- `wire.contains`: suffix-matching membership in a string slice. -/
def contains (slice : List String) (str : String) : Bool :=
  slice.any (fun s => strEndsWith s str)

/-- The dependency-matching predicate used by `Generator.dfs` when
walking edges: dotted dependency types are matched by package suffix
plus either a direct type match or a suffix match against the
implemented interfaces; plain types are matched by type name only. -/
def depMatches (dep : Dependency) (other : Component) : Bool :=
  if strContains dep.Typ '.' then
    let parts := splitOnChar '.' dep.Typ
    let pkgName := parts.getD 0 ""
    let typeName := parts.getD 1 ""
    strEndsWith other.Package pkgName &&
      (other.Typ == typeName || contains other.Implements typeName)
  else
    other.Typ == dep.Typ

/-- All components visited (in order) by the dependency loop of
`Generator.dfs` for a given component: for each declared dependency in
order, every matching component in declaration order. -/
def depTargets (comps : List Component) (c : Component) : List Component :=
  concatMap (fun d => comps.filter (fun o => depMatches d o)) c.Dependencies

/-- Outcome of a generator traversal other than success: fuel
exhaustion (the model's stand-in for non-termination) or the cyclic
dependency panic carrying the reported path. -/
inductive GenErr where
  | fuel
  | cycle (path : List String)
deriving DecidableEq

/-- The mutable state of `Generator`: `visited`, `cyclicMap` (kept in
insertion order, standing in for the current recursion stack) and the
growing output slice `ordered`. -/
structure GenState where
  visited : List String
  cyclic : List String
  ordered : List Component
deriving DecidableEq

/-- `Generator.dfs`, in worklist form: `dfsGo comps fuel ts s` visits
each component of `ts` in turn exactly as the recursive Go `dfs` does.
On re-entering a key already in `cyclicMap` it panics with the keys of
`cyclicMap` (model: insertion order) followed by the re-entered key,
exactly as the Go code builds `cyclePath`.
`defer delete(g.cyclicMap, componentKey)` is modelled by restoring the
caller's `cyclic` on return from a node.  Fuel is consumed on every
step, so the Go recursion terminates exactly when some fuel value
suffices. -/
def dfsGo (comps : List Component) : Nat → List Component → GenState → Except GenErr GenState
  | 0, _, _ => .error .fuel
  | Nat.succ _, [], s => .ok s
  | Nat.succ fuel, comp :: cs, s =>
    if ckey comp ∈ s.cyclic then
      .error (.cycle (s.cyclic ++ [ckey comp]))
    else if ckey comp ∈ s.visited then
      dfsGo comps fuel cs s
    else
      match dfsGo comps fuel (depTargets comps comp)
          { visited := s.visited ++ [ckey comp], cyclic := s.cyclic ++ [ckey comp],
            ordered := s.ordered } with
      | .error e => .error e
      | .ok s3 =>
        dfsGo comps fuel cs
          { visited := s3.visited, cyclic := s.cyclic, ordered := s3.ordered ++ [comp] }

/-- `Generator.dfs` on a single component. -/
def dfs (comps : List Component) (fuel : Nat) (comp : Component) (s : GenState) :
    Except GenErr GenState :=
  dfsGo comps fuel [comp] s

/-- One pass of `Generator.topologicalSort`: iterate the component list
and run `dfs` from every not-yet-visited component (restricted to
dependency-free components on the first pass). -/
def sortPass (comps : List Component) (fuel : Nat) (onlyNoDeps : Bool) :
    List Component → GenState → Except GenErr GenState
  | [], s => .ok s
  | c :: cs, s =>
    if (onlyNoDeps = false ∨ c.Dependencies = []) ∧ ckey c ∉ s.visited then
      match dfs comps fuel c s with
      | .error e => .error e
      | .ok s2 => sortPass comps fuel onlyNoDeps cs s2
    else
      sortPass comps fuel onlyNoDeps cs s

/-- `Generator.topologicalSort`: first the components without
dependencies, then the rest. -/
def topologicalSort (comps : List Component) (fuel : Nat) : Except GenErr (List Component) :=
  match sortPass comps fuel true comps ⟨[], [], []⟩ with
  | .error e => .error e
  | .ok s =>
    match sortPass comps fuel false comps s with
    | .error e => .error e
    | .ok s2 => .ok s2.ordered

/-! ## Specification predicates for the generator -/

/-- Topological validity of a produced order with respect to the
dependency-matching relation walked by `dfs`: every matched target of
the component at position `i` already has its key among the first `i`
keys. -/
def TopoAt (comps : List Component) (ordered : List Component) : Prop :=
  ∀ (i : Nat) (h : i < ordered.length) (v : Component),
    v ∈ depTargets comps (ordered.get ⟨i, h⟩) → ckey v ∈ keys (ordered.take i)

/-- The traversal invariant of `Generator.dfs`: the output slice holds
components of the input with pairwise-distinct keys, `visited` is
exactly the keys already emitted or currently on the stack, the stack
is disjoint from the emitted keys, and the emitted portion is
topologically valid. -/
structure GenInv (comps : List Component) (s : GenState) : Prop where
  sub : ∀ c ∈ s.ordered, c ∈ comps
  nodupKeys : (keys s.ordered).Nodup
  visIff : ∀ k, k ∈ s.visited ↔ (k ∈ keys s.ordered ∨ k ∈ s.cyclic)
  disj : ∀ k ∈ s.cyclic, k ∉ keys s.ordered
  topo : TopoAt comps s.ordered

/-- Induction package for `dfsGo`: a successful run preserves the
invariant, restores the stack, extends the output and the visited set,
and guarantees every component of the worklist has its key emitted. -/
def DfsGoOk (comps : List Component) (fuel : Nat) : Prop :=
  ∀ ts s s', (∀ t ∈ ts, t ∈ comps) → GenInv comps s → dfsGo comps fuel ts s = .ok s' →
    GenInv comps s' ∧ s'.cyclic = s.cyclic ∧ (∃ d, s'.ordered = s.ordered ++ d) ∧
      (∀ t ∈ ts, ckey t ∈ keys s'.ordered) ∧ (∃ dv, s'.visited = s.visited ++ dv)

/-! ## Analyzer (`internal/wire/analyzer.go`) -/

/-- The direct-match arm of
`DependencyAnalyzer.findDependencyComponents`: type name or full key
equality, plus qualifier equality. -/
def directMatch (dep : Dependency) (comp : Component) : Bool :=
  (comp.Typ == dep.Typ || ckey comp == dep.Typ) && comp.Qualifier == dep.Qualifier

/-- The interface-match arm of
`DependencyAnalyzer.findDependencyComponents`: the dependency type is
dotted, and some implemented interface has the same final path segment,
with qualifier equality. -/
def ifaceMatch (dep : Dependency) (comp : Component) : Bool :=
  strContains dep.Typ '.' &&
    comp.Implements.any (fun iface =>
      lastPart (splitOnChar '/' iface) == lastPart (splitOnChar '.' dep.Typ) &&
        comp.Qualifier == dep.Qualifier)

/-- `DependencyAnalyzer.findDependencyComponents`: all components
satisfying a dependency (each component is added at most once: the Go
loop `continue`s after a direct match and `break`s after an interface
match). -/
def findDependencyComponents (comps : List Component) (dep : Dependency) : List Component :=
  comps.filter (fun comp => directMatch dep comp || ifaceMatch dep comp)

/-- All components visited by the analyzer's nested loops over
`comp.Dependencies` and `findDependencyComponents`, in order. -/
def anaTargets (comps : List Component) (c : Component) : List Component :=
  concatMap (findDependencyComponents comps) c.Dependencies

/-- Go `cycleStart` search in `dfsCircular`: index of the first
occurrence of a key in the current path, if any. -/
def cycleStartIdx : List String → String → Option Nat
  | [], _ => none
  | p :: rest, k => if p = k then some 0 else (cycleStartIdx rest k).map (fun i => i + 1)

/-- The two map-sets threaded through `dfsCircular`. -/
structure AnaState where
  visited : List String
  recStack : List String
deriving DecidableEq

/-- A pending step of the `dfsCircular` recursion in worklist form:
either examine a dependency target, or return from a node (resetting
its `recStack` mark and shrinking the path). -/
inductive AnaTask where
  | target (c : Component)
  | leave (k : String)
deriving DecidableEq

/-- `DependencyAnalyzer.dfsCircular` in worklist form.  Examining an
unvisited target marks it visited and in the recursion stack, extends
the path, and queues its own targets followed by its `leave` step; a
visited target still in the recursion stack reports the cycle
`append(path[cycleStart:], depKey)` exactly as the Go code does (if the
key is not on the current path the Go loop continues); `leave` resets
the `recStack` mark and drops the last path entry.  A reported cycle
aborts the remaining worklist, modelling the immediate `return`.  Fuel
is consumed on every step. -/
def anaGo (comps : List Component) :
    Nat → List AnaTask → AnaState → List String →
    Option (Option (List String) × AnaState)
  | 0, _, _, _ => none
  | Nat.succ _, [], st, _ => some (none, st)
  | Nat.succ fuel, AnaTask.leave k :: rest, st, path =>
    anaGo comps fuel rest { st with recStack := setErase st.recStack k } path.dropLast
  | Nat.succ fuel, AnaTask.target c :: rest, st, path =>
    if ckey c ∉ st.visited then
      anaGo comps fuel
        ((anaTargets comps c).map AnaTask.target ++ AnaTask.leave (ckey c) :: rest)
        { visited := st.visited ++ [ckey c], recStack := st.recStack ++ [ckey c] }
        (path ++ [ckey c])
    else if ckey c ∈ st.recStack then
      match cycleStartIdx path (ckey c) with
      | some i => some (some (path.drop i ++ [ckey c]), st)
      | none => anaGo comps fuel rest st path
    else
      anaGo comps fuel rest st path

/-- The outer loop of `DependencyAnalyzer.FindCircularDependencies`:
start a traversal from every not-yet-visited component, collecting the
reported cycle paths. -/
def findCircAux (comps : List Component) (fuel : Nat) :
    List Component → AnaState → Option (List (List String))
  | [], _ => some []
  | c :: cs, st =>
    if ckey c ∉ st.visited then
      match anaGo comps fuel [AnaTask.target c] st [] with
      | none => none
      | some (some p, st2) => (findCircAux comps fuel cs st2).map (fun rest => p :: rest)
      | some (none, st2) => findCircAux comps fuel cs st2
    else
      findCircAux comps fuel cs st

/-- `DependencyAnalyzer.FindCircularDependencies`: the collected cycle
paths over a full scan. -/
def FindCircularDependencies (comps : List Component) (fuel : Nat) :
    Option (List (List String)) :=
  findCircAux comps fuel comps ⟨[], []⟩

/-- An edge of the analyzer's dependency graph at the key level:
some component with the first key has a matched dependency on some
component with the second key. -/
def KeyEdge (comps : List Component) (a b : String) : Prop :=
  ∃ u v, u ∈ comps ∧ ckey u = a ∧ ckey v = b ∧ v ∈ anaTargets comps u

/-- A reported path is a minimal explanatory loop: nonempty, first and
last elements equal, no interior repetition, and consecutive elements
joined by dependency edges. -/
def GoodCycle (comps : List Component) (p : List String) : Prop :=
  p ≠ [] ∧ p.head? = p.getLast? ∧ p.dropLast.Nodup ∧ List.Chain' (KeyEdge comps) p

/-- Whether a component may follow the current (innermost-first)
traversal stack: it must be a dependency target of the innermost stack
entry, if any. -/
def ChainNext (comps : List Component) (rs : List Component) (c : Component) : Prop :=
  match rs with
  | [] => True
  | o :: _ => c ∈ anaTargets comps o

/-- Shape of the `anaGo` worklist relative to the traversal stack `rs`
(innermost frame first): a block of pending targets for each open
frame, each closed by its `leave` step. -/
inductive Frames (comps : List Component) : List AnaTask → List Component → Prop where
  | top (T : List Component) (hT : ∀ t ∈ T, t ∈ comps) :
      Frames comps (T.map AnaTask.target) []
  | frame (T : List Component) (c : Component) (tasks : List AnaTask) (rs : List Component)
      (hT : ∀ t ∈ T, t ∈ anaTargets comps c) (hc : c ∈ comps)
      (hnext : ChainNext comps rs c) (hin : Frames comps tasks rs) :
      Frames comps (T.map AnaTask.target ++ AnaTask.leave (ckey c) :: tasks) (c :: rs)

/-! ## Static emitter (`internal/wire/generator.go`, `generateComponentInits`
and the `wire` template) -/

/-- `wire.componentDep`. -/
structure ComponentDep where
  FieldName : String
  VarName : String
deriving DecidableEq

/-- `wire.interfaceReg`. -/
structure InterfaceReg where
  Interface : String
  Qualifier : String
  VarName : String
deriving DecidableEq

/-- `wire.componentInit` (the Go field `Type` is rendered `Typ`). -/
structure ComponentInit where
  VarName : String
  Typ : String
  Package : String
  Dependencies : List ComponentDep
  Interfaces : List InterfaceReg
  PostConstruct : Bool
  PreDestroy : Bool
deriving DecidableEq

/-- The unresolved-dependency panic raised by `generateComponentInits`,
carrying the data interpolated into the Go panic message. -/
inductive EmitPanic where
  | unresolved (depType : String) (qualifier : String) (pkg : String) (typ : String)
      (fieldName : String)
deriving DecidableEq

/-- First pass of `generateComponentInits`: unique variable names per
component, disambiguated by a numeric count per base type name. -/
def varNamesPass : List Component → List (String × String) → List (String × Nat) →
    List (String × String)
  | [], vn, _ => vn
  | comp :: rest, vn, nameCount =>
    let count := (mapLookup nameCount comp.Typ).getD 0
    let varName := if count > 0 then comp.Typ ++ toString (count + 1) else comp.Typ
    varNamesPass rest (mapInsert vn (comp.Package ++ "." ++ comp.Typ) varName)
      (mapInsert nameCount comp.Typ (count + 1))

/-- The variable-name map for a component list. -/
def varNames (comps : List Component) : List (String × String) :=
  varNamesPass comps [] []

/-- The dotted-dependency resolution loop of `generateComponentInits`:
an interface-implementation match records the candidate and continues
the outer loop (later components overwrite), a direct type match
returns immediately (`break`). -/
def emitResolveDotted (vn : List (String × String)) (pkgName interfaceName qualifier : String) :
    List Component → String → String
  | [], acc => acc
  | c :: rest, acc =>
    if strEndsWith c.Package pkgName then
      let acc2 :=
        if c.Implements.any (fun impl => strEndsWith impl interfaceName) &&
            c.Qualifier == qualifier then
          (mapLookup vn (c.Package ++ "." ++ c.Typ)).getD ""
        else acc
      if c.Typ == interfaceName && c.Qualifier == qualifier then
        (mapLookup vn (c.Package ++ "." ++ c.Typ)).getD ""
      else
        emitResolveDotted vn pkgName interfaceName qualifier rest acc2
    else
      emitResolveDotted vn pkgName interfaceName qualifier rest acc

/-- The plain-dependency resolution loop of `generateComponentInits`:
first component with the matching type name (no qualifier check). -/
def emitResolveDirect (vn : List (String × String)) (typ : String) : List Component → String
  | [] => ""
  | c :: rest =>
    if c.Typ == typ then (mapLookup vn (c.Package ++ "." ++ c.Typ)).getD ""
    else emitResolveDirect vn typ rest

/-- Resolution of one dependency to a variable name (empty string when
nothing matched), as in `generateComponentInits`. -/
def resolveDepVar (components : List Component) (vn : List (String × String))
    (dep : Dependency) : String :=
  if strContains dep.Typ '.' then
    let parts := splitOnChar '.' dep.Typ
    emitResolveDotted vn (parts.getD 0 "") (parts.getD 1 "") dep.Qualifier components ""
  else
    emitResolveDirect vn dep.Typ components

/-- The dependency loop of `generateComponentInits` for one component:
resolved dependencies accumulate; an unresolved one panics with the
message data of the Go source. -/
def buildDeps (components : List Component) (vn : List (String × String))
    (pkg typ : String) : List Dependency → Except EmitPanic (List ComponentDep)
  | [] => .ok []
  | dep :: rest =>
    let depVarName := resolveDepVar components vn dep
    if depVarName ≠ "" then
      match buildDeps components vn pkg typ rest with
      | .error e => .error e
      | .ok ds => .ok (⟨dep.FieldName, depVarName⟩ :: ds)
    else
      .error (.unresolved dep.Typ dep.Qualifier pkg typ dep.FieldName)

/-- Second pass of `generateComponentInits`: one `componentInit` per
component, in order. -/
def buildInits (components : List Component) (vn : List (String × String)) :
    List Component → Except EmitPanic (List ComponentInit)
  | [] => .ok []
  | comp :: rest =>
    match buildDeps components vn comp.Package comp.Typ comp.Dependencies with
    | .error e => .error e
    | .ok ds =>
      match buildInits components vn rest with
      | .error e => .error e
      | .ok is =>
        .ok ({ VarName := (mapLookup vn (comp.Package ++ "." ++ comp.Typ)).getD "",
               Typ := comp.Typ, Package := comp.Package, Dependencies := ds,
               Interfaces := comp.Implements.map (fun iface =>
                 ⟨iface, comp.Qualifier, (mapLookup vn (comp.Package ++ "." ++ comp.Typ)).getD ""⟩),
               PostConstruct := comp.PostConstruct, PreDestroy := comp.PreDestroy } :: is)

/-- `Generator.generateComponentInits` over an (already ordered)
component list. -/
def generateComponentInits (components : List Component) : Except EmitPanic (List ComponentInit) :=
  buildInits components (varNames components) components

/-- The template helper `iterate`: `[count-1, ..., 0]`. -/
def iterate : Nat → List Nat
  | 0 => []
  | Nat.succ n => n :: iterate n

/-- The cleanup closure of the generated `Initialize`: the template
ranges over `iterate (len .Components)` and invokes
`container.{Type}.PreDestroy()` for every component declaring a
pre-teardown hook; the call sequence is recorded as the list of
construction positions whose hook runs, in invocation order. -/
def cleanupCalls (inits : List ComponentInit) : List Nat :=
  (iterate inits.length).filter
    (fun i => ((inits.get? i).map ComponentInit.PreDestroy).getD false)

/-! ## Runtime binder (`ioc/annotations.go`, `ioc/container.go`)

Reflection is modelled structurally: a field's type is a pointer flag
plus the element type's package path and name, and a component's type
is its package path, type name and field list.  An instance created by
`reflect.New(def.typ)` is identified by the full component name under
which pass 1 stores it; nothing in the container code distinguishes
instances beyond identity and field writes, and field writes are
returned as explicit assignment lists. -/

/-- The reflective view of a field type (`Kind`/`Elem`/`PkgPath`/`Name`
are the only operations the container uses). -/
structure TypeRef where
  isPtr : Bool
  pkgPath : String
  name : String
deriving DecidableEq

/-- Go `PkgPath()`: empty on pointer types. -/
def TypeRef.goPkgPath (t : TypeRef) : String :=
  if t.isPtr then "" else t.pkgPath

/-- Go `Name()`: empty on pointer types. -/
def TypeRef.goName (t : TypeRef) : String :=
  if t.isPtr then "" else t.name

/-- `if depType.Kind() == reflect.Ptr { depType = depType.Elem() }`. -/
def TypeRef.elemIfPtr (t : TypeRef) : TypeRef :=
  { isPtr := false, pkgPath := t.pkgPath, name := t.name }

/-- A struct field as seen by reflection: name, tag table, field type. -/
structure GoField where
  fname : String
  tags : List (String × String)
  ftype : TypeRef
deriving DecidableEq

/-- A component struct type as seen by reflection. -/
structure GoStruct where
  pkgPath : String
  sname : String
  fields : List GoField
deriving DecidableEq

/-- `reflect.StructTag.Get`: empty string when absent. -/
def tagGet (tags : List (String × String)) (key : String) : String :=
  (mapLookup tags key).getD ""

/-- `reflect.StructTag.Lookup`: presence only. -/
def tagHas (tags : List (String × String)) (key : String) : Bool :=
  (mapLookup tags key).isSome

/-- `reflect.Type.FieldByName`. -/
def fieldByName (t : GoStruct) (n : String) : Option GoField :=
  t.fields.find? (fun f => f.fname == n)

/-- `ioc.hasComponentAnnotation` (source name kept up to the reserved
final word): the component name from the `name` tag of the `Component`
marker field, defaulting to the lower-cased type name. -/
def hasComponentMarker (t : GoStruct) : Option String :=
  match fieldByName t "Component" with
  | none => none
  | some f =>
    if tagGet f.tags "name" ≠ "" then some (toLowerStr (tagGet f.tags "name"))
    else some (toLowerStr t.sname)

/-- `ioc.getQualifier`. -/
def getQualifier (t : GoStruct) : String :=
  match fieldByName t "Qualifier" with
  | none => ""
  | some f => tagGet f.tags "value"

/-- `ioc.getImplementedInterfaces`. -/
def getImplementedInterfaces (t : GoStruct) : List String :=
  t.fields.filterMap (fun f =>
    if tagGet f.tags "implements" ≠ "" then some (tagGet f.tags "implements") else none)

/-- `ioc.dependency`. -/
structure IocDep where
  fieldName : String
  typeName : String
  qualifier : String
deriving DecidableEq

/-- `ioc.findDependencies`: fields carrying an `autowired` tag; the
dependency type name is the field type's `Name()` (empty for pointer
fields). -/
def findDependencies (t : GoStruct) : List IocDep :=
  t.fields.filterMap (fun f =>
    if tagHas f.tags "autowired" then
      some ⟨f.fname, f.ftype.goName, tagGet f.tags "qualifier"⟩
    else none)

/-- `ioc.getFullComponentName` (the reflect argument reduced to its
package path). -/
def getFullComponentName (pkgPath name : String) : String :=
  toLowerStr (pkgPath ++ "." ++ name)

/-- `ioc.getFullInterfaceName` (the reflect argument reduced to its
package path). -/
def getFullInterfaceName (pkgPath interfaceName : String) : String :=
  if strContains interfaceName '.' then interfaceName else pkgPath ++ "." ++ interfaceName

/-- `ioc.componentDefinition`. -/
structure ComponentDefinition where
  typ : GoStruct
  dependencies : List IocDep
  implements : List String
  qualifier : String
deriving DecidableEq

/-- `ioc.Container`: instances are represented by the full component
name under which pass 1 of `resolve` registers them. -/
structure Container where
  components : List (String × String)
  definitions : List (String × ComponentDefinition)
  interfaces : List (String × List (String × String))
  visited : List String
deriving DecidableEq

/-- The error outcomes of the container operations, one per `fmt.Errorf`
site, plus fuel exhaustion (the model of non-termination). -/
inductive ContErr where
  | notComponent (typeName : String)
  | defNotFound (name : String)
  | fieldNotFoundTyp (fieldName : String)
  | fieldNotFound (fieldName : String)
  | ambiguous (interfaceName : String) (qualifiers : List String)
  | depNotFound (typeName : String) (qualifier : String)
  | fuel
deriving DecidableEq

/-- `ioc.NewContainer`. -/
def NewContainer : Container := ⟨[], [], [], []⟩

/-- `Container.register`: extract metadata, store the definition under
the full name (silently overwriting any previous definition with the
same name), and pre-create empty interface tables.  The only failure is
a missing `Component` marker. -/
def register (c : Container) (t : GoStruct) : Except ContErr Container :=
  match hasComponentMarker t with
  | none => .error (.notComponent t.sname)
  | some name =>
    let fullName := getFullComponentName t.pkgPath name
    let fullImplements := (getImplementedInterfaces t).map
      (fun iface => getFullInterfaceName t.pkgPath iface)
    let d : ComponentDefinition :=
      { typ := t, dependencies := findDependencies t, implements := fullImplements,
        qualifier := getQualifier t }
    .ok { c with
      definitions := mapInsert c.definitions fullName d,
      interfaces := fullImplements.foldl
        (fun m iface => if (mapLookup m iface).isSome then m else mapInsert m iface []) c.interfaces }

/-- Registration of a component list in order
(`Container.RegisterComponents`, registration phase). -/
def registerAll : List GoStruct → Container → Except ContErr Container
  | [], c => .ok c
  | t :: ts, c =>
    match register c t with
    | .error e => .error e
    | .ok c2 => registerAll ts c2

/-- `c.interfaces[iface][qualifier] = instance` with create-if-nil. -/
def ifaceInsert (m : List (String × List (String × String))) (iface q inst : String) :
    List (String × List (String × String)) :=
  match mapLookup m iface with
  | none => mapInsert m iface (mapInsert [] q inst)
  | some inner => mapInsert m iface (mapInsert inner q inst)

/-- Pass 1 of `Container.resolve`: create one instance per definition
and publish its interface bindings immediately. -/
def resolvePassOne : List (String × ComponentDefinition) → Container → Container
  | [], c => c
  | (name, d) :: rest, c =>
    resolvePassOne rest
      { c with
        components := mapInsert c.components name name,
        interfaces := d.implements.foldl (fun m iface => ifaceInsert m iface d.qualifier name)
          c.interfaces }

/-- One dependency of `Container.injectDependencies`: interface lookup
first (sole implementation, or an ambiguity error listing every
available qualifier), then the direct-component fallback, then the
dependency-not-found error; a successful injection is the field
assignment performed by `field.Set`. -/
def injectOne (c : Container) (typ : GoStruct) (dep : IocDep) :
    Except ContErr (String × String) :=
  match fieldByName typ dep.fieldName with
  | none => .error (.fieldNotFound dep.fieldName)
  | some field =>
    let fullTypeName := getFullInterfaceName field.ftype.goPkgPath dep.typeName
    let viaIface : Except ContErr (Option String) :=
      if dep.qualifier ≠ "" then
        match mapLookup c.interfaces fullTypeName with
        | none => .ok none
        | some impls => .ok (mapLookup impls dep.qualifier)
      else
        match mapLookup c.interfaces fullTypeName with
        | none => .ok none
        | some impls =>
          if impls.length = 1 then .ok (impls.head?.map Prod.snd)
          else .error (.ambiguous fullTypeName (impls.map Prod.fst))
    match viaIface with
    | .error e => .error e
    | .ok viaI =>
      let dependency :=
        match viaI with
        | some v => some v
        | none =>
          mapLookup c.components
            (getFullComponentName field.ftype.elemIfPtr.pkgPath dep.typeName)
      match dependency with
      | none => .error (.depNotFound fullTypeName dep.qualifier)
      | some v => .ok (dep.fieldName, v)

/-- `Container.injectDependencies`: all dependencies of one instance in
declaration order, as the list of field assignments. -/
def injectDependencies (c : Container) (typ : GoStruct) :
    List IocDep → Except ContErr (List (String × String))
  | [] => .ok []
  | dep :: rest =>
    match injectOne c typ dep with
    | .error e => .error e
    | .ok a =>
      match injectDependencies c typ rest with
      | .error e => .error e
      | .ok as => .ok (a :: as)

/-- A pending step of the `dfsResolve` recursion in worklist form:
resolve a named component, examine one of its dependencies (recursing
when the dependency is itself a registered component), or finish a
component by injecting its dependencies and marking it visited. -/
inductive ResTask where
  | name (n : String)
  | dep (typ : GoStruct) (d : IocDep)
  | finish (n : String) (typ : GoStruct) (deps : List IocDep)
deriving DecidableEq

/-- `Container.dfsResolve` in worklist form, exactly following the Go
control flow: an already-visited name is a no-op; a missing definition
is an error; otherwise the dependencies are examined in order —
a dependency field missing from the struct is an error, a dependency
whose computed full name is registered is resolved recursively — and
afterwards the component's dependencies are injected and the component
is marked visited.  The `visited` mark is set only after the
dependency loop, and there is no in-progress mark, so a dependency
cycle re-enters the same name with unchanged state.  Fuel is consumed
on every step. -/
def dfsResolveGo : Nat → List ResTask → Container → Except ContErr Container
  | 0, _, _ => .error .fuel
  | Nat.succ _, [], c => .ok c
  | Nat.succ fuel, ResTask.name n :: rest, c =>
    if n ∈ c.visited then
      dfsResolveGo fuel rest c
    else
      match mapLookup c.definitions n with
      | none => .error (.defNotFound n)
      | some d =>
        dfsResolveGo fuel
          ((d.dependencies.map (ResTask.dep d.typ)) ++
            ResTask.finish n d.typ d.dependencies :: rest) c
  | Nat.succ fuel, ResTask.dep typ d :: rest, c =>
    match fieldByName typ d.fieldName with
    | none => .error (.fieldNotFoundTyp d.fieldName)
    | some field =>
      let depName := getFullComponentName field.ftype.elemIfPtr.pkgPath d.typeName
      if (mapLookup c.definitions depName).isSome then
        dfsResolveGo fuel (ResTask.name depName :: rest) c
      else
        dfsResolveGo fuel rest c
  | Nat.succ fuel, ResTask.finish n typ deps :: rest, c =>
    match injectDependencies c typ deps with
    | .error e => .error e
    | .ok _ => dfsResolveGo fuel rest { c with visited := c.visited ++ [n] }

/-- `Container.resolve`: reset the tracking maps, run pass 1, then
depth-first resolution from every definition. -/
def resolve (c : Container) (fuel : Nat) : Except ContErr Container :=
  let c1 : Container := ⟨[], c.definitions, [], []⟩
  let c2 := resolvePassOne c1.definitions c1
  dfsResolveGo fuel (c2.definitions.map (fun kv => ResTask.name kv.1)) c2

/-- `Container.RegisterComponents`: register everything, then resolve. -/
def RegisterComponents (ts : List GoStruct) (fuel : Nat) : Except ContErr Container :=
  match registerAll ts NewContainer with
  | .error e => .error e
  | .ok c => resolve c fuel

/-- `Container.Get`: direct lookup of the lower-cased name, then the
first component (in map-iteration order, modelled as insertion order)
whose full name has `"." + lowercase name` as a suffix; `none` models
the `nil` return. -/
def Get (c : Container) (name : String) : Option String :=
  match mapLookup c.components (toLowerStr name) with
  | some comp => some comp
  | none =>
    (c.components.find? (fun kv => strEndsWith kv.1 ("." ++ toLowerStr name))).map Prod.snd

/-- `Container.GetQualified`. -/
def GetQualified (c : Container) (interfaceName qualifier : String) : Option String :=
  match mapLookup c.interfaces interfaceName with
  | none => none
  | some impls => mapLookup impls qualifier

/-- A pair of legal Go components whose interface-typed autowired
fields resolve to each other through `name` tags: `A` (registered as
`app.ia`) autowires the interface `IB`, satisfied by `B` (registered as
`app.ib` via its `name` tag), and vice versa — a genuine dependency
cycle for `dfsResolve`. -/
def cycStructA : GoStruct :=
  ⟨"app", "A",
    [⟨"Component", [("name", "IA")], ⟨false, "ioc", "Component"⟩⟩,
      ⟨"Dep", [("autowired", "")], ⟨false, "app", "IB"⟩⟩]⟩

/-- The second half of the dependency cycle; see `cycStructA`. -/
def cycStructB : GoStruct :=
  ⟨"app", "B",
    [⟨"Component", [("name", "IB")], ⟨false, "ioc", "Component"⟩⟩,
      ⟨"Dep", [("autowired", "")], ⟨false, "app", "IA"⟩⟩]⟩

/-- The container state entering pass 2 of `resolve` for the cyclic
pair: both instances created, no interface bindings, nothing visited. -/
def cycContainer : Container :=
  ⟨[("app.ia", "app.ia"), ("app.ib", "app.ib")],
    [("app.ia", ⟨cycStructA, [⟨"Dep", "IB", ""⟩], [], ""⟩),
      ("app.ib", ⟨cycStructB, [⟨"Dep", "IA", ""⟩], [], ""⟩)],
    [], []⟩

/-! ## Analyzer dependency depth (`CalculateDependencyDepth`) -/

/-- `if depDepth >= maxDepth { maxDepth = depDepth + 1 }`. -/
def updateMax (m d : Int) : Int :=
  if d ≥ m then d + 1 else m

/-- The memo and in-progress tables of `CalculateDependencyDepth`. -/
structure DState where
  depths : List (String × Int)
  calculating : List String
deriving DecidableEq

/-- One open invocation of the `calculateDepth` closure: the component
being computed, the dependency targets not yet examined, and the
accumulator `maxDepth`. -/
structure DepthFrame where
  comp : Component
  pending : List Component
  maxDepth : Int
deriving DecidableEq

/-- The cascading `-1` return: each open invocation receiving `-1` from
its dependency memoizes `depths[key] = -1`, runs its deferred
`delete(calculating, key)`, and returns `-1` to its own caller. -/
def collapse : List DepthFrame → DState → DState
  | [], st => st
  | f :: fs, st =>
    collapse fs
      ⟨mapInsert st.depths (ckey f.comp) (-1), setErase st.calculating (ckey f.comp)⟩

/-- The recursion of `calculateDepth` in worklist form (innermost open
invocation first).  A frame with no pending targets memoizes its
accumulator, clears its in-progress mark and returns the value to its
caller, which folds it into its own accumulator; examining a target
consults the memo first (a memoized `-1` triggers the cascading abort),
then the in-progress set (a hit means a cycle: `-1`, cascading abort),
and otherwise opens a new invocation.  Fuel is consumed on every
step. -/
def depthGo (comps : List Component) : Nat → List DepthFrame → DState → Option DState
  | 0, _, _ => none
  | Nat.succ _, [], st => some st
  | Nat.succ fuel, f :: fs, st =>
    match f.pending with
    | [] =>
      match fs with
      | [] =>
        depthGo comps fuel []
          ⟨mapInsert st.depths (ckey f.comp) f.maxDepth, setErase st.calculating (ckey f.comp)⟩
      | p :: rest =>
        depthGo comps fuel
          (⟨p.comp, p.pending, updateMax p.maxDepth f.maxDepth⟩ :: rest)
          ⟨mapInsert st.depths (ckey f.comp) f.maxDepth, setErase st.calculating (ckey f.comp)⟩
    | t :: ts =>
      match mapLookup st.depths (ckey t) with
      | some d =>
        if d = -1 then
          some (collapse (f :: fs) st)
        else
          depthGo comps fuel (⟨f.comp, ts, updateMax f.maxDepth d⟩ :: fs) st
      | none =>
        if ckey t ∈ st.calculating then
          some (collapse (f :: fs) st)
        else
          depthGo comps fuel
            (⟨t, anaTargets comps t, 0⟩ :: ⟨f.comp, ts, f.maxDepth⟩ :: fs)
            ⟨st.depths, st.calculating ++ [ckey t]⟩

/-- The outer loop of `CalculateDependencyDepth`: one `calculateDepth`
call per component, threading the tables. -/
def calcDepthRoots (comps : List Component) (fuel : Nat) :
    List Component → DState → Option DState
  | [], st => some st
  | c :: cs, st =>
    match mapLookup st.depths (ckey c) with
    | some _ => calcDepthRoots comps fuel cs st
    | none =>
      if ckey c ∈ st.calculating then
        calcDepthRoots comps fuel cs st
      else
        match depthGo comps fuel [⟨c, anaTargets comps c, 0⟩]
            ⟨st.depths, st.calculating ++ [ckey c]⟩ with
        | none => none
        | some st2 => calcDepthRoots comps fuel cs st2

/-- An upper bound on the number of dependency targets of any
component of the list. -/
def maxTargets (comps : List Component) : Nat :=
  comps.foldr (fun c m => max (anaTargets comps c).length m) 0

/-- A fuel value sufficient for every run of
`CalculateDependencyDepth` (established by the correctness theorem). -/
def depthFuel (comps : List Component) : Nat :=
  (maxTargets comps + 2) * (comps.length + 1)

/-- `DependencyAnalyzer.CalculateDependencyDepth`: the final depth
map. -/
def CalculateDependencyDepth (comps : List Component) (fuel : Nat) :
    Option (List (String × Int)) :=
  (calcDepthRoots comps fuel comps ⟨[], []⟩).map DState.depths

/-- There is a dependency chain of length `n` below `c`. -/
inductive DepthGe (comps : List Component) : Component → Nat → Prop where
  | zero (c : Component) : DepthGe comps c 0
  | succ {c v : Component} {n : Nat} (hv : v ∈ anaTargets comps c)
      (h : DepthGe comps v n) : DepthGe comps c (n + 1)

/-- `n` is the length of the longest dependency chain below `c`. -/
def DepthIs (comps : List Component) (c : Component) (n : Nat) : Prop :=
  DepthGe comps c n ∧ ∀ m, DepthGe comps c m → m ≤ n

/-- Reachability along dependency edges. -/
def Reaches (comps : List Component) : Component → Component → Prop :=
  Relation.ReflTransGen (fun u v => v ∈ anaTargets comps u)

/-- `u` lies on a dependency cycle. -/
def OnCycle (comps : List Component) (u : Component) : Prop :=
  ∃ v, v ∈ anaTargets comps u ∧ Reaches comps v u

/-- Some dependency chain from `c` meets a cycle. -/
def ReachesCycle (comps : List Component) (c : Component) : Prop :=
  ∃ u, Reaches comps c u ∧ OnCycle comps u

/-- Every memo entry is correct: the key belongs to a listed component
which either reaches a cycle (entry `-1`) or has the recorded longest
chain length. -/
def MemoOK (comps : List Component) (m : List (String × Int)) : Prop :=
  ∀ k d, mapLookup m k = some d → ∃ c, c ∈ comps ∧ ckey c = k ∧
    ((d = -1 ∧ ReachesCycle comps c) ∨ ∃ n : Nat, d = (n : Int) ∧ DepthIs comps c n)

/-- The accumulator invariant of one open invocation: `m` is the
maximum of `0` and `depth(t) + 1` over the already-examined targets
`done`. -/
def MaxAcc (comps : List Component) (done : List Component) (m : Int) : Prop :=
  0 ≤ m ∧ (m = 0 ∨ ∃ t ∈ done, ∃ n : Nat, DepthIs comps t n ∧ m = (n : Int) + 1) ∧
    (∀ t ∈ done, ∃ n : Nat, DepthIs comps t n ∧ (n : Int) + 1 ≤ m)

/-- The ancestors of an in-flight `calculateDepth` call on `c`: each
ancestor has examined a prefix `done` of its targets, is currently
awaiting `c`, and keeps `pending` for later. -/
inductive Ancestors (comps : List Component) : List DepthFrame → Component → Prop where
  | nil (c : Component) : Ancestors comps [] c
  | cons (f : DepthFrame) (fs : List DepthFrame) (c : Component) (done : List Component)
      (hcomp : f.comp ∈ comps)
      (hdec : anaTargets comps f.comp = done ++ c :: f.pending)
      (hacc : MaxAcc comps done f.maxDepth)
      (hrest : Ancestors comps fs f.comp) :
      Ancestors comps (f :: fs) c

/-- Shape invariant of the whole `depthGo` stack. -/
def GoodStack (comps : List Component) : List DepthFrame → Prop
  | [] => True
  | f :: fs => f.comp ∈ comps ∧
      (∃ done, anaTargets comps f.comp = done ++ f.pending ∧ MaxAcc comps done f.maxDepth) ∧
      Ancestors comps fs f.comp

/-- The in-progress set is exactly the keys of the open invocations,
pairwise distinct. -/
def FrameKeys (frames : List DepthFrame) (marks : List String) : Prop :=
  (frames.map (fun f => ckey f.comp)).Nodup ∧
    ∀ k, k ∈ marks ↔ k ∈ frames.map (fun f => ckey f.comp)

/-- No open invocation is memoized yet. -/
def FreshFrames (frames : List DepthFrame) (m : List (String × Int)) : Prop :=
  ∀ f ∈ frames, mapLookup m (ckey f.comp) = none

/-- The component keys neither memoized nor in progress. -/
def freshSet (comps : List Component) (st : DState) : Finset String :=
  (keys comps).toFinset.filter
    (fun k => mapLookup st.depths k = none ∧ k ∉ st.calculating)

/-- The termination measure of `depthGo`: pending work plus a reserve
for every component key neither memoized nor in progress. -/
def depthMeasure (comps : List Component) (frames : List DepthFrame) (st : DState) : Nat :=
  (frames.map (fun f => f.pending.length + 1)).sum +
    (maxTargets comps + 2) * (freshSet comps st).card

/-! ## Theorems -/

theorem mem_concatMap {α β : Type} (f : α → List β) (l : List α) (b : β) :
    b ∈ concatMap f l ↔ ∃ a ∈ l, b ∈ f a := by
  induction l with
  | nil => simp [concatMap]
  | cons a as ih => simp [concatMap, ih]

theorem depTargets_subset {comps : List Component} {c v : Component}
    (h : v ∈ depTargets comps c) : v ∈ comps := by
  rw [depTargets, mem_concatMap] at h
  obtain ⟨d, _, hv⟩ := h
  exact (List.mem_filter.mp hv).1

theorem keys_append (l l2 : List Component) : keys (l ++ l2) = keys l ++ keys l2 :=
  List.map_append _ _ _

theorem genInv_init (comps : List Component) : GenInv comps ⟨[], [], []⟩ := by
  refine ⟨?_, ?_, ?_, ?_, ?_⟩ <;> simp [TopoAt, keys]

theorem topoAt_append (comps : List Component) (l : List Component) (c : Component)
    (htopo : TopoAt comps l) (hc : ∀ v ∈ depTargets comps c, ckey v ∈ keys l) :
    TopoAt comps (l ++ [c]) := by
  intro i h v hv
  rcases Nat.lt_or_ge i l.length with hi | hi
  · have hget : (l ++ [c]).get ⟨i, h⟩ = l.get ⟨i, hi⟩ := List.get_append i hi
    rw [hget] at hv
    have := htopo i hi v hv
    rwa [List.take_append_of_le_length (Nat.le_of_lt hi)]
  · have hlen : (l ++ [c]).length = l.length + 1 := by simp
    have hieq : i = l.length := by omega
    subst hieq
    have hget : (l ++ [c]).get ⟨l.length, h⟩ = c := List.get_of_append rfl rfl
    rw [hget] at hv
    have := hc v hv
    rwa [List.take_append_of_le_length (Nat.le_refl _), List.take_length]

theorem dfsGo_ok (comps : List Component) : ∀ fuel, DfsGoOk comps fuel := by
  intro fuel
  induction fuel with
  | zero =>
    intro ts s s' _ _ h
    simp only [dfsGo] at h
    exact Except.noConfusion h
  | succ fuel ih =>
    intro ts s s' hsub hinv h
    cases ts with
    | nil =>
      simp only [dfsGo] at h
      cases h
      exact ⟨hinv, rfl, ⟨[], by simp⟩, by simp, ⟨[], by simp⟩⟩
    | cons c cs =>
      simp only [dfsGo] at h
      by_cases h1 : ckey c ∈ s.cyclic
      · rw [if_pos h1] at h; cases h
      rw [if_neg h1] at h
      by_cases h2 : ckey c ∈ s.visited
      · rw [if_pos h2] at h
        obtain ⟨inv', hcyc', ⟨d', hd'⟩, hkeys', ⟨dv', hv'⟩⟩ :=
          ih cs s s' (fun u hu => hsub u (by simp [hu])) hinv h
        refine ⟨inv', hcyc', ⟨d', hd'⟩, ?_, ⟨dv', hv'⟩⟩
        intro u hu
        rcases List.mem_cons.mp hu with hu | hu
        · subst hu
          rcases (hinv.visIff (ckey u)).mp h2 with hk | hk
          · rw [hd', keys_append]; exact List.mem_append_left _ hk
          · exact absurd hk h1
        · exact hkeys' u hu
      rw [if_neg h2] at h
      set s2 : GenState :=
        { visited := s.visited ++ [ckey c], cyclic := s.cyclic ++ [ckey c],
          ordered := s.ordered } with hs2
      have inv2 : GenInv comps s2 := by
        refine ⟨hinv.sub, hinv.nodupKeys, ?_, ?_, hinv.topo⟩
        · intro k
          constructor
          · intro hk
            rcases List.mem_append.mp hk with hk | hk
            · rcases (hinv.visIff k).mp hk with hk | hk
              · exact Or.inl hk
              · exact Or.inr (List.mem_append_left _ hk)
            · exact Or.inr (List.mem_append_right _ hk)
          · intro hk
            rcases hk with hk | hk
            · exact List.mem_append_left _ ((hinv.visIff k).mpr (Or.inl hk))
            · rcases List.mem_append.mp hk with hk | hk
              · exact List.mem_append_left _ ((hinv.visIff k).mpr (Or.inr hk))
              · exact List.mem_append_right _ hk
        · intro k hk
          rcases List.mem_append.mp hk with hk | hk
          · exact hinv.disj k hk
          · have hkc : k = ckey c := by simpa using hk
            intro hmem
            rw [hkc] at hmem
            exact h2 ((hinv.visIff (ckey c)).mpr (Or.inl hmem))
      cases hd : dfsGo comps fuel (depTargets comps c) s2 with
      | error e => rw [hd] at h; cases h
      | ok s3 =>
        rw [hd] at h
        obtain ⟨inv3, hcyc3, ⟨d3, hd3⟩, hkeys3, ⟨dv3, hv3⟩⟩ :=
          ih (depTargets comps c) s2 s3 (fun t ht => depTargets_subset ht) inv2 hd
        have hnotin : ckey c ∉ keys s3.ordered := by
          intro hmem
          exact inv3.disj (ckey c) (by rw [hcyc3]; exact List.mem_append_right _ (by simp)) hmem
        set s4 : GenState :=
          { visited := s3.visited, cyclic := s.cyclic, ordered := s3.ordered ++ [c] } with hs4
        have inv4 : GenInv comps s4 := by
          refine ⟨?_, ?_, ?_, ?_, ?_⟩
          · intro u hu
            rcases List.mem_append.mp hu with hu | hu
            · exact inv3.sub u hu
            · simpa using (by rw [List.mem_singleton.mp hu]; exact hsub c (by simp))
          · show (keys (s3.ordered ++ [c])).Nodup
            rw [keys_append]
            refine List.Nodup.append inv3.nodupKeys (by simp [keys]) ?_
            intro a ha hb
            have : a = ckey c := by simpa [keys] using hb
            subst this
            exact hnotin ha
          · intro k
            show k ∈ s3.visited ↔ k ∈ keys (s3.ordered ++ [c]) ∨ k ∈ s.cyclic
            rw [keys_append]
            constructor
            · intro hk
              rcases (inv3.visIff k).mp hk with hk | hk
              · exact Or.inl (List.mem_append_left _ hk)
              · rw [hcyc3] at hk
                rcases List.mem_append.mp hk with hk | hk
                · exact Or.inr hk
                · exact Or.inl (List.mem_append_right _ (by simpa [keys] using hk))
            · intro hk
              rcases hk with hk | hk
              · rcases List.mem_append.mp hk with hk | hk
                · exact (inv3.visIff k).mpr (Or.inl hk)
                · have hkc : k = ckey c := by simpa [keys] using hk
                  rw [hkc]
                  exact (inv3.visIff (ckey c)).mpr (Or.inr (by rw [hcyc3]; simp))
              · exact (inv3.visIff k).mpr (Or.inr (by rw [hcyc3]; exact List.mem_append_left _ hk))
          · intro k hk
            show k ∉ keys (s3.ordered ++ [c])
            rw [keys_append]
            intro hmem
            rcases List.mem_append.mp hmem with hm | hm
            · exact inv3.disj k (by rw [hcyc3]; exact List.mem_append_left _ hk) hm
            · have hkc : k = ckey c := by simpa [keys] using hm
              rw [hkc] at hk
              exact h1 hk
          · exact topoAt_append comps s3.ordered c inv3.topo hkeys3
        obtain ⟨inv', hcyc', ⟨d', hd'⟩, hkeys', ⟨dv', hv'⟩⟩ :=
          ih cs s4 s' (fun u hu => hsub u (by simp [hu])) inv4 h
        have hordc : ckey c ∈ keys s4.ordered := by
          show ckey c ∈ keys (s3.ordered ++ [c])
          rw [keys_append]
          exact List.mem_append_right _ (by simp [keys])
        refine ⟨inv', by rw [hcyc'], ?_, ?_, ?_⟩
        · refine ⟨d3 ++ [c] ++ d', ?_⟩
          rw [hd']
          show s4.ordered ++ d' = s.ordered ++ (d3 ++ [c] ++ d')
          rw [hs4]
          simp [hd3, hs2]
        · intro u hu
          rcases List.mem_cons.mp hu with hu | hu
          · subst hu
            rw [hd', keys_append]
            exact List.mem_append_left _ hordc
          · exact hkeys' u hu
        · refine ⟨[ckey c] ++ dv3 ++ dv', ?_⟩
          rw [hv']
          show s4.visited ++ dv' = s.visited ++ ([ckey c] ++ dv3 ++ dv')
          rw [hs4]
          simp [hv3, hs2]

theorem dfs_ok (comps : List Component) (fuel : Nat) :
    ∀ c s s', c ∈ comps → GenInv comps s → dfs comps fuel c s = .ok s' →
    GenInv comps s' ∧ s'.cyclic = s.cyclic ∧ (∃ d, s'.ordered = s.ordered ++ d) ∧
      ckey c ∈ keys s'.ordered ∧ (∃ dv, s'.visited = s.visited ++ dv) := by
  intro c s s' hc hinv h
  obtain ⟨inv', hcyc', hord', hkeys', hv'⟩ :=
    dfsGo_ok comps fuel [c] s s' (by simpa using hc) hinv h
  exact ⟨inv', hcyc', hord', hkeys' c (by simp), hv'⟩

theorem sortPass_ok (comps : List Component) (fuel : Nat) (b : Bool) :
    ∀ cs s s', (∀ c ∈ cs, c ∈ comps) → GenInv comps s →
      sortPass comps fuel b cs s = .ok s' →
      GenInv comps s' ∧ s'.cyclic = s.cyclic ∧ (∃ d, s'.ordered = s.ordered ++ d) ∧
        (∃ dv, s'.visited = s.visited ++ dv) ∧
        (b = false → ∀ c ∈ cs, ckey c ∈ s'.visited) := by
  intro cs
  induction cs with
  | nil =>
    intro s s' _ hinv h
    simp only [sortPass] at h
    cases h
    exact ⟨hinv, rfl, ⟨[], by simp⟩, ⟨[], by simp⟩, by intro _ c hc; cases hc⟩
  | cons c cs ih =>
    intro s s' hsub hinv h
    simp only [sortPass] at h
    by_cases hcond : (b = false ∨ c.Dependencies = []) ∧ ckey c ∉ s.visited
    · rw [if_pos hcond] at h
      cases hd : dfs comps fuel c s with
      | error e => rw [hd] at h; cases h
      | ok s2 =>
        rw [hd] at h
        obtain ⟨inv2, hcyc2, ⟨d2, hd2⟩, hkey2, ⟨dv2, hv2⟩⟩ :=
          dfs_ok comps fuel c s s2 (hsub c (by simp)) hinv hd
        obtain ⟨inv3, hcyc3, ⟨d3, hd3⟩, ⟨dv3, hv3⟩, hrest⟩ :=
          ih s2 s' (fun u hu => hsub u (by simp [hu])) inv2 h
        refine ⟨inv3, by rw [hcyc3, hcyc2], ⟨d2 ++ d3, by rw [hd3, hd2, List.append_assoc]⟩,
          ⟨dv2 ++ dv3, by rw [hv3, hv2, List.append_assoc]⟩, ?_⟩
        intro hb u hu
        rcases List.mem_cons.mp hu with hu | hu
        · subst hu
          have : ckey u ∈ s2.visited :=
            (inv2.visIff (ckey u)).mpr (Or.inl hkey2)
          rw [hv3]
          exact List.mem_append_left _ this
        · exact hrest hb u hu
    · rw [if_neg hcond] at h
      obtain ⟨inv3, hcyc3, hord3, ⟨dv3, hv3⟩, hrest⟩ :=
        ih s s' (fun u hu => hsub u (by simp [hu])) hinv h
      refine ⟨inv3, hcyc3, hord3, ⟨dv3, hv3⟩, ?_⟩
      intro hb u hu
      rcases List.mem_cons.mp hu with hu | hu
      · subst hu
        have hin : ckey u ∈ s.visited := by
          by_contra hnot
          exact hcond ⟨Or.inl hb, hnot⟩
        rw [hv3]
        exact List.mem_append_left _ hin
      · exact hrest hb u hu

theorem topologicalSort_ok_state (comps : List Component) (fuel : Nat)
    (ordered : List Component) (h : topologicalSort comps fuel = .ok ordered) :
    ∃ s2 : GenState, ordered = s2.ordered ∧ GenInv comps s2 ∧
      (∀ c ∈ comps, ckey c ∈ keys s2.ordered) := by
  simp only [topologicalSort] at h
  cases h1 : sortPass comps fuel true comps ⟨[], [], []⟩ with
  | error e => rw [h1] at h; cases h
  | ok s =>
    rw [h1] at h
    dsimp only at h
    cases h2 : sortPass comps fuel false comps s with
    | error e => rw [h2] at h; cases h
    | ok s2 =>
      rw [h2] at h
      dsimp only at h
      cases h
      obtain ⟨inv1, hcyc1, _, _, _⟩ :=
        sortPass_ok comps fuel true comps ⟨[], [], []⟩ s (fun _ hc => hc)
          (genInv_init comps) h1
      obtain ⟨inv2, hcyc2, _, _, hall⟩ :=
        sortPass_ok comps fuel false comps s s2 (fun _ hc => hc) inv1 h2
      refine ⟨s2, rfl, inv2, ?_⟩
      intro c hc
      have hv : ckey c ∈ s2.visited := hall rfl c hc
      rcases (inv2.visIff (ckey c)).mp hv with hk | hk
      · exact hk
      · rw [hcyc2, hcyc1] at hk
        cases hk

theorem ckey_inj_of_nodup {comps : List Component} (hnd : (keys comps).Nodup)
    {a b : Component} (ha : a ∈ comps) (hb : b ∈ comps) (h : ckey a = ckey b) : a = b :=
  List.inj_on_of_nodup_map hnd ha hb h

/-- Claim C9 (amended): whenever `topologicalSort` returns normally and
all components carry pairwise-distinct identity keys, the returned
sequence is a permutation of the input list — nothing dropped, nothing
duplicated.  (As stated, without the distinct-key proviso, the claim is
false: see the counterexample, where a duplicated identity is emitted
only once.) -/
theorem topologicalSort_ok_perm (comps : List Component) (fuel : Nat)
    (ordered : List Component) (hok : topologicalSort comps fuel = .ok ordered)
    (hnd : (keys comps).Nodup) : ordered.Perm comps := by
  obtain ⟨s2, rfl, inv, hall⟩ := topologicalSort_ok_state comps fuel _ hok
  have nodupO : s2.ordered.Nodup := List.Nodup.of_map ckey inv.nodupKeys
  have nodupC : comps.Nodup := List.Nodup.of_map ckey hnd
  rw [List.perm_ext_iff_of_nodup nodupO nodupC]
  intro a
  constructor
  · intro ha
    exact inv.sub a ha
  · intro ha
    obtain ⟨c', hc', hck⟩ := List.mem_map.mp (hall a ha)
    have : c' = a := ckey_inj_of_nodup hnd (inv.sub c' hc') ha hck
    rwa [this] at hc'

/-- Claim C1: on a successful traversal (the topological sort returns a
construction order, which it does exactly when the resolved graph it
walks is acyclic), every provider appears strictly before every
component that depends on it: for every resolved edge (u→v) — `v` a
match of one of `u`'s dependency requests — `v` occupies an earlier
position of the returned sequence than `u`.  Identity keys are assumed
pairwise distinct, as the data model requires. -/
theorem topologicalSort_deps_before (comps : List Component) (fuel : Nat)
    (ordered : List Component) (hok : topologicalSort comps fuel = .ok ordered)
    (hnd : (keys comps).Nodup) :
    ∀ (i : Nat) (hi : i < ordered.length) (v : Component),
      v ∈ depTargets comps (ordered.get ⟨i, hi⟩) →
      ∃ (j : Nat) (hj : j < ordered.length), j < i ∧ ordered.get ⟨j, hj⟩ = v := by
  obtain ⟨s2, rfl, inv, hall⟩ := topologicalSort_ok_state comps fuel _ hok
  intro i hi v hv
  have hk := inv.topo i hi v hv
  obtain ⟨c', hc', hck⟩ := List.mem_map.mp hk
  obtain ⟨⟨j, hj⟩, hget⟩ := List.mem_iff_get.mp hc'
  have hji : j < i := by
    have h2 := hj
    rw [List.length_take] at h2
    omega
  have hjlen : j < s2.ordered.length := by
    have h2 := hj
    rw [List.length_take] at h2
    omega
  have hgt : (s2.ordered.take i).get ⟨j, hj⟩ = s2.ordered.get ⟨j, hjlen⟩ := by
    simp [List.get_take]
  have hmem : c' ∈ s2.ordered := List.mem_of_mem_take hc'
  have hcv : c' = v :=
    ckey_inj_of_nodup hnd (inv.sub c' hmem) (depTargets_subset hv) hck
  refine ⟨j, hjlen, hji, ?_⟩
  rw [← hgt, hget, hcv]

/-- Witness for claim C1: components `A` (no dependencies) and `B`
(depends on `A`); the sort returns `[A, B]` and `A` precedes `B`. -/
theorem topologicalSort_deps_before_witness :
    ∃ (j : Nat) (hj : j < ([(⟨"A", "A", "test", "", [], [], false, false⟩ : Component),
        ⟨"B", "B", "test", "", [], [⟨"SA", "A", ""⟩], false, false⟩] : List Component).length),
      j < 1 ∧ ([(⟨"A", "A", "test", "", [], [], false, false⟩ : Component),
        ⟨"B", "B", "test", "", [], [⟨"SA", "A", ""⟩], false, false⟩] : List Component).get ⟨j, hj⟩ =
        ⟨"A", "A", "test", "", [], [], false, false⟩ :=
  topologicalSort_deps_before
    [⟨"A", "A", "test", "", [], [], false, false⟩,
      ⟨"B", "B", "test", "", [], [⟨"SA", "A", ""⟩], false, false⟩] 8
    [⟨"A", "A", "test", "", [], [], false, false⟩,
      ⟨"B", "B", "test", "", [], [⟨"SA", "A", ""⟩], false, false⟩]
    (by rfl) (by decide) 1 (by decide)
    ⟨"A", "A", "test", "", [], [], false, false⟩ (by decide)

/-- Counterexample for claim C9 as stated: on an input containing the
same component twice, `topologicalSort` returns normally but emits the
component only once, so the result is not a permutation of the input. -/
theorem topologicalSort_duplicate_not_perm :
    topologicalSort [(⟨"A", "A", "test", "", [], [], false, false⟩ : Component),
        ⟨"A", "A", "test", "", [], [], false, false⟩] 8 =
      .ok [⟨"A", "A", "test", "", [], [], false, false⟩] ∧
    ¬ ([(⟨"A", "A", "test", "", [], [], false, false⟩ : Component)].Perm
        [⟨"A", "A", "test", "", [], [], false, false⟩,
          ⟨"A", "A", "test", "", [], [], false, false⟩]) := by
  refine ⟨by rfl, ?_⟩
  intro h
  have hlen := h.length_eq
  simp at hlen

/-- Witness for claim C9 (amended): the two-component run returns a
permutation of its input. -/
theorem topologicalSort_ok_perm_witness :
    ([(⟨"A", "A", "test", "", [], [], false, false⟩ : Component),
      ⟨"B", "B", "test", "", [], [⟨"SA", "A", ""⟩], false, false⟩] : List Component).Perm
    [⟨"A", "A", "test", "", [], [], false, false⟩,
      ⟨"B", "B", "test", "", [], [⟨"SA", "A", ""⟩], false, false⟩] :=
  topologicalSort_ok_perm
    [⟨"A", "A", "test", "", [], [], false, false⟩,
      ⟨"B", "B", "test", "", [], [⟨"SA", "A", ""⟩], false, false⟩] 8
    [⟨"A", "A", "test", "", [], [], false, false⟩,
      ⟨"B", "B", "test", "", [], [⟨"SA", "A", ""⟩], false, false⟩]
    (by rfl) (by decide)

theorem anaTargets_subset {comps : List Component} {u v : Component}
    (h : v ∈ anaTargets comps u) : v ∈ comps := by
  rw [anaTargets, mem_concatMap] at h
  obtain ⟨d, _, hv⟩ := h
  exact (List.mem_filter.mp hv).1

theorem cycleStartIdx_head {p : List String} {k : String} :
    ∀ {i : Nat}, cycleStartIdx p k = some i → (p.drop i).head? = some k := by
  induction p with
  | nil => intro i h; simp [cycleStartIdx] at h
  | cons a rest ih =>
    intro i h
    simp only [cycleStartIdx] at h
    by_cases ha : a = k
    · rw [if_pos ha] at h
      cases h
      simp [ha]
    · rw [if_neg ha] at h
      cases hi : cycleStartIdx rest k with
      | none => rw [hi] at h; cases h
      | some j =>
        rw [hi] at h
        cases h
        simpa using ih hi

theorem framesMem {comps : List Component} {tasks : List AnaTask} {rs : List Component}
    (h : Frames comps tasks rs) : ∀ x ∈ rs, x ∈ comps := by
  induction h with
  | top T hT => intro x hx; cases hx
  | frame T c tasks rs hT hc hnext hin ih =>
    intro x hx
    rcases List.mem_cons.mp hx with hx | hx
    · rw [hx]; exact hc
    · exact ih x hx

theorem framesChain {comps : List Component} {tasks : List AnaTask} {rs : List Component}
    (h : Frames comps tasks rs) : List.Chain' (KeyEdge comps) ((keys rs).reverse) := by
  induction h with
  | top T hT => simp [keys]
  | frame T c tasks rs hT hc hnext hin ih =>
    show List.Chain' (KeyEdge comps) ((keys (c :: rs)).reverse)
    have : (keys (c :: rs)).reverse = (keys rs).reverse ++ [ckey c] := by simp [keys]
    rw [this]
    rw [List.chain'_append]
    refine ⟨ih, List.chain'_singleton _, ?_⟩
    intro x hx y hy
    cases rs with
    | nil => simp [keys] at hx
    | cons o rs0 =>
      have hxo : x = ckey o := by
        simp [keys] at hx
        exact hx.symm
      have hyc : y = ckey c := by
        simp at hy
        exact hy.symm
      rw [hxo, hyc]
      exact ⟨o, c, framesMem hin o (by simp), rfl, rfl, hnext⟩

theorem frames_leave_inv {comps : List Component} {tasks : List AnaTask} {rs : List Component}
    (h : Frames comps tasks rs) :
    ∀ {k : String} {rest : List AnaTask}, tasks = AnaTask.leave k :: rest →
    ∃ c rs0, rs = c :: rs0 ∧ k = ckey c ∧ Frames comps rest rs0 := by
  cases h with
  | top T hT =>
    intro k rest heq
    cases T <;> simp at heq
  | frame T c tasks0 rs0 hT hc hnext hin =>
    intro k rest heq
    cases T with
    | nil =>
      simp at heq
      exact ⟨c, rs0, rfl, heq.1.symm, heq.2 ▸ hin⟩
    | cons t T' => simp at heq

theorem frames_target_inv {comps : List Component} {tasks : List AnaTask} {rs : List Component}
    (h : Frames comps tasks rs) :
    ∀ {d : Component} {rest : List AnaTask}, tasks = AnaTask.target d :: rest →
    (rs = [] ∧ d ∈ comps ∧ Frames comps rest []) ∨
    (∃ c rs0, rs = c :: rs0 ∧ d ∈ anaTargets comps c ∧ Frames comps rest rs) := by
  cases h with
  | top T hT =>
    intro d rest heq
    cases T with
    | nil => simp at heq
    | cons t T' =>
      simp at heq
      refine Or.inl ⟨rfl, heq.1 ▸ hT t (by simp), ?_⟩
      rw [heq.2.symm]
      exact Frames.top T' (fun u hu => hT u (by simp [hu]))
  | frame T c tasks0 rs0 hT hc hnext hin =>
    intro d rest heq
    cases T with
    | nil => simp at heq
    | cons t T' =>
      simp at heq
      refine Or.inr ⟨c, rs0, rfl, heq.1 ▸ hT t (by simp), ?_⟩
      rw [heq.2.symm]
      exact Frames.frame T' c tasks0 rs0 (fun u hu => hT u (by simp [hu])) hc hnext hin

theorem anaGo_sound (comps : List Component) :
    ∀ (fuel : Nat) (tasks : List AnaTask) (rs : List Component) (st : AnaState)
      (res : List String) (st2 : AnaState),
      Frames comps tasks rs → (keys rs).Nodup → (∀ k ∈ keys rs, k ∈ st.visited) →
      anaGo comps fuel tasks st ((keys rs).reverse) = some (some res, st2) →
      GoodCycle comps res := by
  intro fuel
  induction fuel with
  | zero =>
    intro tasks rs st res st2 _ _ _ h
    simp only [anaGo] at h
    exact Option.noConfusion h
  | succ fuel ih =>
    intro tasks rs st res st2 hfr hnd hvis h
    cases tasks with
    | nil =>
      simp only [anaGo] at h
      cases h
    | cons task rest =>
      cases task with
      | leave k =>
        obtain ⟨c, rs0, hrs, hk, hfr0⟩ := frames_leave_inv hfr rfl
        subst hrs
        have hpath : ((keys (c :: rs0)).reverse).dropLast = (keys rs0).reverse := by
          simp [keys]
        simp only [anaGo] at h
        rw [hpath] at h
        refine ih rest rs0 _ res st2 hfr0 ?_ ?_ h
        · have := hnd
          simp [keys] at this ⊢
          exact this.2
        · intro k2 hk2
          exact hvis k2 (by simp [keys] at hk2 ⊢; exact Or.inr hk2)
      | target d =>
        simp only [anaGo] at h
        by_cases hv : ckey d ∉ st.visited
        · rw [if_pos hv] at h
          have hdc : d ∈ comps := by
            rcases frames_target_inv hfr rfl with ⟨_, hd, _⟩ | ⟨c, rs0, _, hd, _⟩
            · exact hd
            · exact anaTargets_subset hd
          have hfr2 : Frames comps
              ((anaTargets comps d).map AnaTask.target ++ AnaTask.leave (ckey d) :: rest)
              (d :: rs) := by
            refine Frames.frame (anaTargets comps d) d rest rs (fun t ht => ht) hdc ?_ ?_
            · rcases frames_target_inv hfr rfl with ⟨hrs, _, _⟩ | ⟨c, rs0, hrs, hd, _⟩
              · rw [hrs]; trivial
              · rw [hrs]; exact hd
            · rcases frames_target_inv hfr rfl with ⟨hrs, _, hfr0⟩ | ⟨c, rs0, hrs, _, hfr0⟩
              · rw [hrs]; exact hfr0
              · exact hfr0
          have hpath2 : (keys rs).reverse ++ [ckey d] = (keys (d :: rs)).reverse := by
            simp [keys]
          rw [hpath2] at h
          refine ih _ (d :: rs) _ res st2 hfr2 ?_ ?_ h
          · simp only [keys, List.map_cons, List.nodup_cons]
            constructor
            · intro hmem
              exact hv (hvis (ckey d) hmem)
            · exact hnd
          · intro k2 hk2
            simp only [keys, List.map_cons, List.mem_cons] at hk2
            rcases hk2 with hk2 | hk2
            · simp [hk2]
            · simp only [AnaState.visited]
              exact List.mem_append_left _ (hvis k2 hk2)
        · rw [if_neg hv] at h
          by_cases hr : ckey d ∈ st.recStack
          · rw [if_pos hr] at h
            cases hidx : cycleStartIdx ((keys rs).reverse) (ckey d) with
            | none =>
              rw [hidx] at h
              rcases frames_target_inv hfr rfl with ⟨hrs, _, hfr0⟩ | ⟨c, rs0, hrs, _, hfr0⟩
              · exact ih rest rs st res st2 (hrs ▸ hfr0) hnd hvis h
              · exact ih rest rs st res st2 hfr0 hnd hvis h
            | some i =>
              rw [hidx] at h
              cases h
              -- the reported cycle is path.drop i ++ [ckey d]
              rcases frames_target_inv hfr rfl with ⟨hrs, _, _⟩ | ⟨c, rs0, hrs, hd, _⟩
              · rw [hrs] at hidx
                simp [keys, cycleStartIdx] at hidx
              · -- facts about the path
                have hhead : (((keys rs).reverse).drop i).head? = some (ckey d) :=
                  cycleStartIdx_head hidx
                have hne : ((keys rs).reverse).drop i ≠ [] := by
                  intro hemp
                  rw [hemp] at hhead
                  cases hhead
                have hchain : List.Chain' (KeyEdge comps) ((keys rs).reverse ++ [ckey d]) := by
                  rw [List.chain'_append]
                  refine ⟨framesChain hfr, List.chain'_singleton _, ?_⟩
                  intro x hx y hy
                  rw [hrs] at hx
                  have hxc : x = ckey c := by
                    simp [keys] at hx
                    exact hx.symm
                  have hyd : y = ckey d := by
                    simp at hy
                    exact hy.symm
                  rw [hxc, hyd]
                  exact ⟨c, d, framesMem hfr c (by rw [hrs]; simp), rfl, rfl, hd⟩
                refine ⟨by simp, ?_, ?_, ?_⟩
                · -- head? = getLast?
                  rw [List.head?_append_of_ne_nil _ hne]
                  rw [hhead, List.getLast?_concat]
                · -- interior nodup
                  rw [List.dropLast_concat]
                  refine List.Nodup.sublist (List.drop_sublist _ _) ?_
                  rw [List.nodup_reverse]
                  exact hnd
                · -- chain
                  have hsplit : (keys rs).reverse ++ [ckey d] =
                      ((keys rs).reverse.take i) ++ (((keys rs).reverse.drop i) ++ [ckey d]) := by
                    rw [← List.append_assoc, List.take_append_drop]
                  rw [hsplit] at hchain
                  exact List.Chain'.right_of_append hchain
          · rw [if_neg hr] at h
            rcases frames_target_inv hfr rfl with ⟨hrs, _, hfr0⟩ | ⟨c, rs0, hrs, _, hfr0⟩
            · exact ih rest rs st res st2 (hrs ▸ hfr0) hnd hvis h
            · exact ih rest rs st res st2 hfr0 hnd hvis h

theorem findCircAux_sound (comps : List Component) (fuel : Nat) :
    ∀ (cs : List Component) (st : AnaState) (cycles : List (List String)),
      (∀ c ∈ cs, c ∈ comps) →
      findCircAux comps fuel cs st = some cycles →
      ∀ p ∈ cycles, GoodCycle comps p := by
  intro cs
  induction cs with
  | nil =>
    intro st cycles _ h p hp
    simp only [findCircAux] at h
    cases h
    cases hp
  | cons c cs ih =>
    intro st cycles hsub h p hp
    simp only [findCircAux] at h
    by_cases hv : ckey c ∉ st.visited
    · rw [if_pos hv] at h
      cases hrun : anaGo comps fuel [AnaTask.target c] st [] with
      | none => rw [hrun] at h; cases h
      | some pr =>
        rw [hrun] at h
        obtain ⟨opt, st2⟩ := pr
        cases opt with
        | some q =>
          dsimp only at h
          cases hrest : findCircAux comps fuel cs st2 with
          | none => rw [hrest] at h; simp at h
          | some rest =>
            rw [hrest] at h
            simp at h
            have hcyc : q :: rest = cycles := h
            rcases List.mem_cons.mp (hcyc ▸ hp) with hp2 | hp2
            · have htop : Frames comps ([c].map AnaTask.target) [] :=
                Frames.top [c] (by
                  intro t ht
                  simp at ht
                  rw [ht]
                  exact hsub c (by simp))
              have hg : GoodCycle comps q :=
                anaGo_sound comps fuel [AnaTask.target c] [] st q st2 htop
                  (by simp [keys]) (by simp [keys]) (by simpa [keys] using hrun)
              rw [hp2]
              exact hg
            · exact ih st2 rest (fun u hu => hsub u (by simp [hu])) hrest p hp2
        | none =>
          dsimp only at h
          exact ih st2 cycles (fun u hu => hsub u (by simp [hu])) h p hp
    · rw [if_neg hv] at h
      exact ih st cycles (fun u hu => hsub u (by simp [hu])) h p hp

/-- Claim C4 (amended): every cycle path reported by the Analyzer's
cycle detector (`dfsCircular`) is an ordered minimal loop: it is
nonempty, its first and last elements are equal, its interior repeats
no node, and consecutive elements follow dependency edges — for input
{A depends on B, B depends on A} the path is exactly [A, B, A].  The
generator's `dfs` panic message does not have this property: it reports
the entire current recursion stack followed by the re-entered key (see
the counterexample). -/
theorem findCircular_minimal_loops (comps : List Component) (fuel : Nat)
    (cycles : List (List String))
    (h : FindCircularDependencies comps fuel = some cycles) :
    ∀ p ∈ cycles, p ≠ [] ∧ p.head? = p.getLast? ∧ p.dropLast.Nodup ∧
      List.Chain' (KeyEdge comps) p := by
  intro p hp
  exact findCircAux_sound comps fuel comps ⟨[], []⟩ cycles (fun _ hc => hc) h p hp

/-- Witness for claim C4 (amended): for {A depends on B, B depends on A}
the Analyzer reports exactly the loop [test.A, test.B, test.A], and that
loop has the minimal-loop shape. -/
theorem findCircular_minimal_loops_witness :
    FindCircularDependencies
      [(⟨"A", "A", "test", "", [], [⟨"SB", "B", ""⟩], false, false⟩ : Component),
        ⟨"B", "B", "test", "", [], [⟨"SA", "A", ""⟩], false, false⟩] 20 =
      some [["test.A", "test.B", "test.A"]] ∧
    (["test.A", "test.B", "test.A"] ≠ ([] : List String) ∧
      ["test.A", "test.B", "test.A"].head? = ["test.A", "test.B", "test.A"].getLast? ∧
      ["test.A", "test.B", "test.A"].dropLast.Nodup ∧
      List.Chain' (KeyEdge [(⟨"A", "A", "test", "", [], [⟨"SB", "B", ""⟩], false, false⟩ : Component),
        ⟨"B", "B", "test", "", [], [⟨"SA", "A", ""⟩], false, false⟩])
        ["test.A", "test.B", "test.A"]) :=
  ⟨by rfl,
    findCircular_minimal_loops
      [⟨"A", "A", "test", "", [], [⟨"SB", "B", ""⟩], false, false⟩,
        ⟨"B", "B", "test", "", [], [⟨"SA", "A", ""⟩], false, false⟩] 20
      [["test.A", "test.B", "test.A"]] (by rfl)
      ["test.A", "test.B", "test.A"] (by simp)⟩

/-- Counterexample for claim C4 as stated: the generator's cycle
report.  On input {C depends on A, A depends on B, B depends on A} the
generator panics with the whole traversal stack plus the re-entered
key, [test.C, test.A, test.B, test.A]: its first and last elements
differ and it contains the off-loop node test.C, so it is not the
minimal loop from the cycle's entry point back to itself. -/
theorem generator_cycle_path_not_minimal :
    topologicalSort [(⟨"C", "C", "test", "", [], [⟨"SA", "A", ""⟩], false, false⟩ : Component),
        ⟨"A", "A", "test", "", [], [⟨"SB", "B", ""⟩], false, false⟩,
        ⟨"B", "B", "test", "", [], [⟨"SA", "A", ""⟩], false, false⟩] 9 =
      .error (.cycle ["test.C", "test.A", "test.B", "test.A"]) ∧
    ["test.C", "test.A", "test.B", "test.A"].head? ≠
      ["test.C", "test.A", "test.B", "test.A"].getLast? := by
  exact ⟨by rfl, by decide⟩

theorem mem_iterate {n i : Nat} : i ∈ iterate n ↔ i < n := by
  induction n with
  | zero => simp [iterate]
  | succ n ih =>
    simp only [iterate, List.mem_cons, ih]
    omega

theorem iterate_pairwise (n : Nat) : (iterate n).Pairwise (fun a b => b < a) := by
  induction n with
  | zero => simp [iterate]
  | succ n ih =>
    simp only [iterate, List.pairwise_cons]
    exact ⟨fun b hb => mem_iterate.mp hb, ih⟩

theorem cleanupCalls_pairwise (inits : List ComponentInit) :
    (cleanupCalls inits).Pairwise (fun a b => b < a) :=
  (iterate_pairwise inits.length).sublist (List.filter_sublist _)

theorem mem_cleanupCalls {inits : List ComponentInit} {i : Nat} (hi : i < inits.length)
    (hp : (inits.get ⟨i, hi⟩).PreDestroy = true) : i ∈ cleanupCalls inits := by
  rw [cleanupCalls, List.mem_filter]
  refine ⟨mem_iterate.mpr hi, ?_⟩
  rw [List.get?_eq_get hi]
  simpa [List.get_eq_getElem] using hp

/-- Claim C6: the teardown closure emitted by the template invokes
pre-teardown hooks in strictly reverse construction order: for any two
construction positions `i < j` whose components both declare a
`PreDestroy` hook, the call for position `j` occurs strictly before the
call for position `i` in the cleanup sequence. -/
theorem cleanup_reverse_order (inits : List ComponentInit) (i j : Nat)
    (hi : i < inits.length) (hj : j < inits.length) (hij : i < j)
    (hpi : (inits.get ⟨i, hi⟩).PreDestroy = true)
    (hpj : (inits.get ⟨j, hj⟩).PreDestroy = true) :
    ∃ (p q : Nat) (hp : p < (cleanupCalls inits).length)
      (hq : q < (cleanupCalls inits).length),
      p < q ∧ (cleanupCalls inits).get ⟨p, hp⟩ = j ∧ (cleanupCalls inits).get ⟨q, hq⟩ = i := by
  obtain ⟨⟨p, hp⟩, hgp⟩ := List.mem_iff_get.mp (mem_cleanupCalls hj hpj)
  obtain ⟨⟨q, hq⟩, hgq⟩ := List.mem_iff_get.mp (mem_cleanupCalls hi hpi)
  refine ⟨p, q, hp, hq, ?_, hgp, hgq⟩
  have hpair := List.pairwise_iff_get.mp (cleanupCalls_pairwise inits)
  rcases Nat.lt_trichotomy p q with h | h | h
  · exact h
  · exfalso
    subst h
    have hji : j = i := by rw [← hgp, ← hgq]
    omega
  · exfalso
    have := hpair ⟨q, hq⟩ ⟨p, hp⟩ h
    rw [hgp, hgq] at this
    omega

/-- Witness for claim C6: two components with hooks at positions 0 and
1; position 1's hook runs first. -/
theorem cleanup_reverse_order_witness :
    ∃ (p q : Nat)
      (hp : p < (cleanupCalls [(⟨"A", "A", "pkg/a", [], [], false, true⟩ : ComponentInit),
        ⟨"B", "B", "pkg/b", [], [], false, true⟩]).length)
      (hq : q < (cleanupCalls [(⟨"A", "A", "pkg/a", [], [], false, true⟩ : ComponentInit),
        ⟨"B", "B", "pkg/b", [], [], false, true⟩]).length),
      p < q ∧
      (cleanupCalls [(⟨"A", "A", "pkg/a", [], [], false, true⟩ : ComponentInit),
        ⟨"B", "B", "pkg/b", [], [], false, true⟩]).get ⟨p, hp⟩ = 1 ∧
      (cleanupCalls [(⟨"A", "A", "pkg/a", [], [], false, true⟩ : ComponentInit),
        ⟨"B", "B", "pkg/b", [], [], false, true⟩]).get ⟨q, hq⟩ = 0 :=
  cleanup_reverse_order
    [⟨"A", "A", "pkg/a", [], [], false, true⟩, ⟨"B", "B", "pkg/b", [], [], false, true⟩]
    0 1 (by decide) (by decide) (by decide) (by decide) (by decide)

theorem lowChar_fix (n : Nat) (h1 : 97 ≤ n) (h2 : n ≤ 122) :
    lowChar (Char.ofNat n) = Char.ofNat n := by
  interval_cases n <;> decide

theorem lowChar_idem (c : Char) : lowChar (lowChar c) = lowChar c := by
  by_cases h : 65 ≤ c.toNat ∧ c.toNat ≤ 90
  · have hlc : lowChar c = Char.ofNat (c.toNat + 32) := by rw [lowChar, if_pos h]
    rw [hlc]
    exact lowChar_fix _ (by omega) (by omega)
  · have hlc : lowChar c = c := by rw [lowChar, if_neg h]
    rw [hlc]
    exact hlc

theorem toLowerStr_idem (s : String) : toLowerStr (toLowerStr s) = toLowerStr s := by
  simp only [toLowerStr, List.map_map]
  congr 1
  exact List.map_congr_left (fun c _ => lowChar_idem c)

/-- Claim C10: `Container.Get` is case-insensitive.  Identities are
stored lower-cased at registration (`getFullComponentName` returns a
lower-case fixed point), and for every container and every name,
`Get` returns the same result on the name and on its lower-cased
form. -/
theorem Get_case_insensitive :
    (∀ (c : Container) (s : String), Get c s = Get c (toLowerStr s)) ∧
    (∀ pkgPath name : String,
      toLowerStr (getFullComponentName pkgPath name) = getFullComponentName pkgPath name) := by
  constructor
  · intro c s
    rw [Get, Get, toLowerStr_idem]
  · intro pkgPath name
    rw [getFullComponentName, toLowerStr_idem]

theorem mapLookup_eq_none_iff {α : Type} (m : List (String × α)) (k : String) :
    mapLookup m k = none ↔ ∀ kv ∈ m, kv.1 ≠ k := by
  induction m with
  | nil => simp [mapLookup]
  | cons kv rest ih =>
    obtain ⟨k', v⟩ := kv
    simp only [mapLookup]
    by_cases h : k' = k
    · rw [if_pos h]
      simp [h]
    · rw [if_neg h]
      simp [ih, h]

theorem mapLookup_mapInsert_self {α : Type} (m : List (String × α)) (k : String) (v : α) :
    mapLookup (mapInsert m k v) k = some v := by
  induction m with
  | nil => simp [mapInsert, mapLookup]
  | cons kv rest ih =>
    obtain ⟨k', v'⟩ := kv
    simp only [mapInsert]
    by_cases h : k' = k
    · rw [if_pos h]
      simp [mapLookup]
    · rw [if_neg h]
      simp only [mapLookup, if_neg h]
      exact ih

/-- Claim C7 (amended): `Get` succeeds exactly when at least one
registered identity matches — a direct hit on the lower-cased name or a
`"." + name` suffix match — and with several matching identities it
still returns a value (the first match in map-iteration order, a
heuristic pick), never an error; `nil` is returned only when nothing
matches. -/
theorem Get_match_threshold (c : Container) (name : String) :
    ((∃ kv ∈ c.components, kv.1 = toLowerStr name ∨
        strEndsWith kv.1 ("." ++ toLowerStr name) = true) →
      ∃ v, Get c name = some v) ∧
    ((∀ kv ∈ c.components, kv.1 ≠ toLowerStr name ∧
        strEndsWith kv.1 ("." ++ toLowerStr name) = false) →
      Get c name = none) := by
  constructor
  · rintro ⟨kv, hmem, hmatch⟩
    rw [Get]
    cases hdir : mapLookup c.components (toLowerStr name) with
    | some v => exact ⟨v, rfl⟩
    | none =>
      rcases hmatch with hmatch | hmatch
      · exact absurd hmatch ((mapLookup_eq_none_iff _ _).mp hdir kv hmem)
      · cases hfind : c.components.find? (fun kv => strEndsWith kv.1 ("." ++ toLowerStr name)) with
        | some kv2 => exact ⟨kv2.2, by rfl⟩
        | none =>
          have := List.find?_eq_none.mp hfind kv hmem
          rw [hmatch] at this
          exact absurd rfl this
  · intro hnone
    rw [Get]
    have hdir : mapLookup c.components (toLowerStr name) = none :=
      (mapLookup_eq_none_iff _ _).mpr (fun kv hm => (hnone kv hm).1)
    rw [hdir]
    have hfind : c.components.find? (fun kv => strEndsWith kv.1 ("." ++ toLowerStr name)) = none := by
      rw [List.find?_eq_none]
      intro kv hm
      rw [(hnone kv hm).2]
      exact Bool.false_ne_true
    rw [hfind]
    rfl

/-- Witness for claim C7 (amended): a container with one matching
identity yields that instance; an empty container yields `nil`. -/
theorem Get_match_threshold_witness :
    (∃ v, Get ⟨[("pkga.foo", "inst")], [], [], []⟩ "foo" = some v) ∧
    Get ⟨[("pkga.bar", "inst")], [], [], []⟩ "foo" = none :=
  ⟨(Get_match_threshold ⟨[("pkga.foo", "inst")], [], [], []⟩ "foo").1
      ⟨("pkga.foo", "inst"), by decide, Or.inr (by decide)⟩,
    (Get_match_threshold ⟨[("pkga.bar", "inst")], [], [], []⟩ "foo").2
      (by decide)⟩

/-- Counterexample for claim C7 as stated: two registered identities
both match the short name `foo`, yet `Get` does not fail — it silently
returns the first match in map-iteration order. -/
theorem Get_two_matches_not_error :
    strEndsWith "pkga.foo" ("." ++ toLowerStr "foo") = true ∧
    strEndsWith "pkgb.foo" ("." ++ toLowerStr "foo") = true ∧
    Get ⟨[("pkga.foo", "instA"), ("pkgb.foo", "instB")], [], [], []⟩ "foo" = some "instA" := by
  exact ⟨by rfl, by rfl, by rfl⟩

theorem register_ok (c : Container) (t : GoStruct) (n : String)
    (h : hasComponentMarker t = some n) :
    register c t = .ok
      { components := c.components,
        definitions := mapInsert c.definitions (getFullComponentName t.pkgPath n)
          ⟨t, findDependencies t,
            (getImplementedInterfaces t).map (getFullInterfaceName t.pkgPath), getQualifier t⟩,
        interfaces := ((getImplementedInterfaces t).map (getFullInterfaceName t.pkgPath)).foldl
          (fun m iface => if (mapLookup m iface).isSome then m else mapInsert m iface [])
          c.interfaces,
        visited := c.visited } := by
  rw [register, h]

/-- Claim C5 (amended): registration performs no conflict detection.
Two components sharing one identity are both accepted and the later
registration silently overwrites the earlier definition; likewise, two
components implementing the same interface with the same qualifier are
both accepted and pass 1 of resolution publishes the later instance
under that (interface, qualifier) slot.  No conflict error exists at
build time; duplicate-qualifier conflicts surface only in the advisory
Analyzer. -/
theorem register_accepts_conflicts :
    (∀ (c : Container) (t1 t2 : GoStruct) (n1 n2 : String),
      hasComponentMarker t1 = some n1 → hasComponentMarker t2 = some n2 →
      getFullComponentName t1.pkgPath n1 = getFullComponentName t2.pkgPath n2 →
      ∃ c2, registerAll [t1, t2] c = .ok c2 ∧
        mapLookup c2.definitions (getFullComponentName t1.pkgPath n1) =
          some ⟨t2, findDependencies t2,
            (getImplementedInterfaces t2).map (getFullInterfaceName t2.pkgPath),
            getQualifier t2⟩) ∧
    (∀ (m : List (String × List (String × String))) (iface q a b : String),
      mapLookup (mapLookup (ifaceInsert (ifaceInsert m iface q a) iface q b) iface |>.getD [])
        q = some b) := by
  constructor
  · intro c t1 t2 n1 n2 h1 h2 hname
    refine
      ⟨{ components := c.components,
         definitions :=
           mapInsert
             (mapInsert c.definitions (getFullComponentName t1.pkgPath n1)
               ⟨t1, findDependencies t1,
                 (getImplementedInterfaces t1).map (getFullInterfaceName t1.pkgPath),
                 getQualifier t1⟩)
             (getFullComponentName t2.pkgPath n2)
             ⟨t2, findDependencies t2,
               (getImplementedInterfaces t2).map (getFullInterfaceName t2.pkgPath),
               getQualifier t2⟩,
         interfaces :=
           ((getImplementedInterfaces t2).map (getFullInterfaceName t2.pkgPath)).foldl
             (fun m iface => if (mapLookup m iface).isSome then m else mapInsert m iface [])
             (((getImplementedInterfaces t1).map (getFullInterfaceName t1.pkgPath)).foldl
               (fun m iface => if (mapLookup m iface).isSome then m else mapInsert m iface [])
               c.interfaces),
         visited := c.visited }, ?_, ?_⟩
    · rw [registerAll, register_ok c t1 n1 h1]
      dsimp only
      rw [registerAll, register_ok _ t2 n2 h2]
      dsimp only
      rw [registerAll]
    · dsimp only
      rw [hname, mapLookup_mapInsert_self]
  · intro m iface q a b
    rw [ifaceInsert]
    cases h : mapLookup (ifaceInsert m iface q a) iface with
    | none =>
      rw [ifaceInsert] at h
      cases h2 : mapLookup m iface with
      | none => rw [h2] at h; rw [mapLookup_mapInsert_self] at h; cases h
      | some inner => rw [h2] at h; rw [mapLookup_mapInsert_self] at h; cases h
    | some inner =>
      rw [mapLookup_mapInsert_self]
      simp only [Option.getD]
      exact mapLookup_mapInsert_self inner q b

/-- Witness for claim C5 (amended): registering two annotated structs
with the same identity succeeds with the second definition winning, and
publishing two instances under one (interface, qualifier) slot keeps
the second. -/
theorem register_accepts_conflicts_witness :
    (∃ c2, registerAll
        [(⟨"app", "A", [⟨"Component", [], ⟨false, "ioc", "Component"⟩⟩]⟩ : GoStruct),
          ⟨"app", "A", [⟨"Component", [], ⟨false, "ioc", "Component"⟩⟩,
            ⟨"Extra", [], ⟨false, "app", "E"⟩⟩]⟩] NewContainer = .ok c2 ∧
      mapLookup c2.definitions (getFullComponentName "app" "a") =
        some ⟨⟨"app", "A", [⟨"Component", [], ⟨false, "ioc", "Component"⟩⟩,
            ⟨"Extra", [], ⟨false, "app", "E"⟩⟩]⟩,
          findDependencies ⟨"app", "A", [⟨"Component", [], ⟨false, "ioc", "Component"⟩⟩,
            ⟨"Extra", [], ⟨false, "app", "E"⟩⟩]⟩,
          (getImplementedInterfaces ⟨"app", "A", [⟨"Component", [], ⟨false, "ioc", "Component"⟩⟩,
            ⟨"Extra", [], ⟨false, "app", "E"⟩⟩]⟩).map (getFullInterfaceName "app"),
          getQualifier ⟨"app", "A", [⟨"Component", [], ⟨false, "ioc", "Component"⟩⟩,
            ⟨"Extra", [], ⟨false, "app", "E"⟩⟩]⟩⟩) ∧
    mapLookup (mapLookup (ifaceInsert (ifaceInsert [] "I" "q" "a") "I" "q" "b") "I" |>.getD [])
      "q" = some "b" :=
  ⟨register_accepts_conflicts.1 NewContainer
      ⟨"app", "A", [⟨"Component", [], ⟨false, "ioc", "Component"⟩⟩]⟩
      ⟨"app", "A", [⟨"Component", [], ⟨false, "ioc", "Component"⟩⟩,
        ⟨"Extra", [], ⟨false, "app", "E"⟩⟩]⟩
      "a" "a" (by rfl) (by rfl) (by rfl),
    register_accepts_conflicts.2 [] "I" "q" "a" "b"⟩

/-- Counterexample for claim C5 as stated: two components sharing one
identity are not rejected — registration returns success with the
second definition silently replacing the first. -/
theorem register_duplicate_identity_not_rejected :
    registerAll
      [(⟨"app", "A", [⟨"Component", [], ⟨false, "ioc", "Component"⟩⟩]⟩ : GoStruct),
        ⟨"app", "A", [⟨"Component", [], ⟨false, "ioc", "Component"⟩⟩,
          ⟨"Extra", [], ⟨false, "app", "E"⟩⟩]⟩] NewContainer =
      .ok ⟨[], [("app.a", ⟨⟨"app", "A", [⟨"Component", [], ⟨false, "ioc", "Component"⟩⟩,
          ⟨"Extra", [], ⟨false, "app", "E"⟩⟩]⟩, [], [], ""⟩)], [], []⟩ := by
  rfl

theorem cyc_loop : ∀ fuel : Nat,
    (∀ rest, dfsResolveGo fuel (ResTask.name "app.ia" :: rest) cycContainer = .error .fuel) ∧
    (∀ rest, dfsResolveGo fuel (ResTask.name "app.ib" :: rest) cycContainer = .error .fuel) ∧
    (∀ rest, dfsResolveGo fuel (ResTask.dep cycStructA ⟨"Dep", "IB", ""⟩ :: rest) cycContainer =
      .error .fuel) ∧
    (∀ rest, dfsResolveGo fuel (ResTask.dep cycStructB ⟨"Dep", "IA", ""⟩ :: rest) cycContainer =
      .error .fuel) := by
  intro fuel
  induction fuel with
  | zero => exact ⟨fun _ => rfl, fun _ => rfl, fun _ => rfl, fun _ => rfl⟩
  | succ fuel ih =>
    refine ⟨?_, ?_, ?_, ?_⟩
    · intro rest
      exact ih.2.2.1 (ResTask.finish "app.ia" cycStructA [⟨"Dep", "IB", ""⟩] :: rest)
    · intro rest
      exact ih.2.2.2 (ResTask.finish "app.ib" cycStructB [⟨"Dep", "IA", ""⟩] :: rest)
    · intro rest
      exact ih.2.1 rest
    · intro rest
      exact ih.1 rest

/-- Claim C2 (code bug): on a registered component pair forming a
genuine dependency cycle, the Runtime Binder's resolution entry point
does not terminate: for every fuel value the model runs out of fuel
instead of returning the cycle error the specification promises.
`dfsResolve` marks a component visited only after its dependencies are
fully resolved and keeps no in-progress mark, so the cycle re-enters
the same component with unchanged state forever. -/
theorem registerComponents_cycle_diverges :
    ∀ fuel : Nat, RegisterComponents [cycStructA, cycStructB] fuel = .error .fuel := by
  intro fuel
  have h := (cyc_loop fuel).1 [ResTask.name "app.ib"]
  exact h

theorem emitResolveDotted_all_qualified (vn : List (String × String))
    (pkgName interfaceName : String) :
    ∀ (comps : List Component) (acc : String), (∀ c ∈ comps, c.Qualifier ≠ "") →
      emitResolveDotted vn pkgName interfaceName "" comps acc = acc := by
  intro comps
  induction comps with
  | nil => intro acc _; rfl
  | cons c rest ih =>
    intro acc hq
    have hcq : (c.Qualifier == "") = false := by
      rw [beq_eq_false_iff_ne]
      exact hq c (by simp)
    rw [emitResolveDotted]
    by_cases hpkg : strEndsWith c.Package pkgName = true
    · rw [if_pos hpkg]
      rw [hcq]
      simp only [Bool.and_false, Bool.false_eq_true, if_false]
      exact ih acc (fun u hu => hq u (by simp [hu]))
    · rw [if_neg hpkg]
      exact ih acc (fun u hu => hq u (by simp [hu]))

/-- Claim C3 (amended): with an empty qualifier and two or more
implementations of the requested interface, the Runtime Binder's
injection fails with an error listing every candidate qualifier and
binds nothing; the Static Emitter, however, does not report ambiguity —
when all candidate implementations carry (distinct, non-empty)
qualifiers and the request's qualifier is empty, none of them matches
and emission aborts with the unresolved-dependency panic, which names
the request but lists no candidates. -/
theorem ambiguity_runtime_vs_emitter :
    (∀ (c : Container) (typ : GoStruct) (dep : IocDep) (field : GoField)
      (impls : List (String × String)),
      fieldByName typ dep.fieldName = some field →
      dep.qualifier = "" →
      mapLookup c.interfaces (getFullInterfaceName field.ftype.goPkgPath dep.typeName) =
        some impls →
      2 ≤ impls.length →
      injectOne c typ dep = .error
        (.ambiguous (getFullInterfaceName field.ftype.goPkgPath dep.typeName)
          (impls.map Prod.fst))) ∧
    (∀ (comps : List Component) (vn : List (String × String)) (pkg typ : String)
      (dep : Dependency) (rest : List Dependency),
      strContains dep.Typ '.' = true →
      dep.Qualifier = "" →
      (∀ c ∈ comps, c.Qualifier ≠ "") →
      buildDeps comps vn pkg typ (dep :: rest) =
        .error (.unresolved dep.Typ dep.Qualifier pkg typ dep.FieldName)) := by
  constructor
  · intro c typ dep field impls hfield hq hlook hlen
    rw [injectOne, hfield]
    dsimp only
    rw [hq]
    simp only [ne_eq, not_true_eq_false, if_false]
    rw [hlook]
    dsimp only
    have hne : ¬ impls.length = 1 := by omega
    rw [if_neg hne]
  · intro comps vn pkg typ dep rest hdot hq hallq
    rw [buildDeps]
    have hres : resolveDepVar comps vn dep = "" := by
      rw [resolveDepVar, if_pos hdot]
      rw [hq]
      exact emitResolveDotted_all_qualified vn _ _ comps "" hallq
    rw [hres]
    simp

/-- Witness for claim C3 (amended).  Runtime Binder: interface
`app/logger.Logger` with implementations under qualifiers `json` and
`console` and an unqualified request yields the ambiguity error listing
both qualifiers.  Static Emitter: interface `pkgi.I` implemented under
qualifiers `p` and `q`, requested without qualifier, aborts with the
unresolved panic. -/
theorem ambiguity_runtime_vs_emitter_witness :
    injectOne
      ⟨[], [], [("app/logger.Logger", [("json", "x"), ("console", "y")])], []⟩
      ⟨"app", "Z", [⟨"Log", [("autowired", "")], ⟨false, "app/logger", "Logger"⟩⟩]⟩
      ⟨"Log", "Logger", ""⟩ =
      .error (.ambiguous "app/logger.Logger" ["json", "console"]) ∧
    buildDeps
      [(⟨"X", "X", "app/pkgi", "p", ["pkgi.I"], [], false, false⟩ : Component),
        ⟨"Y", "Y", "app/pkgi", "q", ["pkgi.I"], [], false, false⟩]
      [] "app/z" "Z" [⟨"Dep", "pkgi.I", ""⟩] =
      .error (.unresolved "pkgi.I" "" "app/z" "Z" "Dep") :=
  ⟨ambiguity_runtime_vs_emitter.1
      ⟨[], [], [("app/logger.Logger", [("json", "x"), ("console", "y")])], []⟩
      ⟨"app", "Z", [⟨"Log", [("autowired", "")], ⟨false, "app/logger", "Logger"⟩⟩]⟩
      ⟨"Log", "Logger", ""⟩ ⟨"Log", [("autowired", "")], ⟨false, "app/logger", "Logger"⟩⟩
      [("json", "x"), ("console", "y")] (by rfl) (by rfl) (by rfl) (by decide),
    ambiguity_runtime_vs_emitter.2
      [⟨"X", "X", "app/pkgi", "p", ["pkgi.I"], [], false, false⟩,
        ⟨"Y", "Y", "app/pkgi", "q", ["pkgi.I"], [], false, false⟩]
      [] "app/z" "Z" ⟨"Dep", "pkgi.I", ""⟩ [] (by rfl) (by rfl) (by decide)⟩

/-- Counterexample for claim C3 as stated: in the Static Emitter, a
dependency with empty qualifier on an interface with two qualified
implementations does not produce an ambiguous-binding error listing the
candidate qualifiers — emission aborts with an unresolved-dependency
panic that names only the request itself. -/
theorem emitter_ambiguity_is_unresolved_panic :
    generateComponentInits
      [(⟨"X", "X", "app/pkgi", "p", ["pkgi.I"], [], false, false⟩ : Component),
        ⟨"Y", "Y", "app/pkgi", "q", ["pkgi.I"], [], false, false⟩,
        ⟨"Z", "Z", "app/z", "", [], [⟨"Dep", "pkgi.I", ""⟩], false, false⟩] =
      .error (.unresolved "pkgi.I" "" "app/z" "Z" "Dep") := by
  rfl

theorem mapLookup_mapInsert_ne {α : Type} (m : List (String × α)) {k k' : String} (v : α)
    (h : k' ≠ k) : mapLookup (mapInsert m k v) k' = mapLookup m k' := by
  have hkk : k ≠ k' := Ne.symm h
  induction m with
  | nil =>
    simp only [mapInsert, mapLookup, if_neg hkk]
  | cons kv rest ih =>
    obtain ⟨k2, v2⟩ := kv
    simp only [mapInsert]
    by_cases h2 : k2 = k
    · rw [if_pos h2]
      subst h2
      simp only [mapLookup, if_neg hkk]
    · rw [if_neg h2]
      simp only [mapLookup]
      by_cases h3 : k2 = k'
      · rw [if_pos h3, if_pos h3]
      · rw [if_neg h3, if_neg h3]
        exact ih

theorem mapLookup_mapInsert_isSome {α : Type} (m : List (String × α)) (k k' : String) (v : α)
    (h : (mapLookup m k').isSome) : (mapLookup (mapInsert m k v) k').isSome := by
  by_cases hk : k' = k
  · rw [hk, mapLookup_mapInsert_self]
    rfl
  · rw [mapLookup_mapInsert_ne m v hk]
    exact h

theorem mem_setErase {l : List String} {k k' : String} :
    k' ∈ setErase l k ↔ k' ∈ l ∧ k' ≠ k := by
  simp [setErase, List.mem_filter]

theorem DepthGe_mono {comps : List Component} {c : Component} {m : Nat}
    (h : DepthGe comps c m) : ∀ k ≤ m, DepthGe comps c k := by
  induction h with
  | zero c =>
    intro k hk
    interval_cases k
    exact DepthGe.zero c
  | succ hv h ih =>
    intro k hk
    cases k with
    | zero => exact DepthGe.zero _
    | succ k2 => exact DepthGe.succ hv (ih k2 (by omega))

theorem DepthIs_unique {comps : List Component} {c : Component} {n n' : Nat}
    (h : DepthIs comps c n) (h' : DepthIs comps c n') : n = n' :=
  Nat.le_antisymm (h'.2 n h.1) (h.2 n' h'.1)

theorem reaches_depthGe {comps : List Component} {a b : Component} (h : Reaches comps a b) :
    ∀ n, DepthGe comps b n → ∃ m, n ≤ m ∧ DepthGe comps a m := by
  induction h using Relation.ReflTransGen.head_induction_on with
  | refl => exact fun n hn => ⟨n, Nat.le_refl n, hn⟩
  | head hedge _ ih =>
    intro n hn
    obtain ⟨m, hm, hge⟩ := ih n hn
    exact ⟨m + 1, by omega, DepthGe.succ hedge hge⟩

theorem onCycle_depthGe {comps : List Component} {u : Component} (h : OnCycle comps u) :
    ∀ n, DepthGe comps u n := by
  intro n
  induction n with
  | zero => exact DepthGe.zero u
  | succ n ih =>
    obtain ⟨v, hv, hr⟩ := h
    obtain ⟨m, hm, hge⟩ := reaches_depthGe hr n ih
    exact DepthGe_mono (DepthGe.succ hv hge) (n + 1) (by omega)

theorem reachesCycle_not_depthIs {comps : List Component} {c : Component}
    (h : ReachesCycle comps c) (n : Nat) : ¬ DepthIs comps c n := by
  rintro ⟨_, hub⟩
  obtain ⟨u, hr, hcyc⟩ := h
  obtain ⟨m, hm, hge⟩ := reaches_depthGe hr (n + 1) (onCycle_depthGe hcyc (n + 1))
  have := hub m hge
  omega

theorem updateMax_ge (m d : Int) : m ≤ updateMax m d := by
  rw [updateMax]
  by_cases h : d ≥ m
  · rw [if_pos h]; omega
  · rw [if_neg h]

theorem updateMax_ge_succ (m d : Int) : d + 1 ≤ updateMax m d := by
  rw [updateMax]
  by_cases h : d ≥ m
  · rw [if_pos h]
  · rw [if_neg h]; omega

theorem foldr_max_le (comps : List Component) :
    ∀ (l : List Component) (c : Component), c ∈ l →
    (anaTargets comps c).length ≤
      l.foldr (fun c m => max (anaTargets comps c).length m) 0 := by
  intro l
  induction l with
  | nil => intro c h; cases h
  | cons a rest ih =>
    intro c h
    simp only [List.foldr]
    rcases List.mem_cons.mp h with h | h
    · rw [h]
      exact Nat.le_max_left _ _
    · exact le_trans (ih c h) (Nat.le_max_right _ _)

theorem maxTargets_bound {comps : List Component} {c : Component} (h : c ∈ comps) :
    (anaTargets comps c).length ≤ maxTargets comps :=
  foldr_max_le comps comps c h

theorem ancestors_mem {comps : List Component} {fs : List DepthFrame} {c : Component}
    (h : Ancestors comps fs c) : ∀ f ∈ fs, f.comp ∈ comps := by
  induction h with
  | nil => intro f hf; cases hf
  | cons f fs c done hcomp hdec hacc hrest ih =>
    intro g hg
    rcases List.mem_cons.mp hg with hg | hg
    · rw [hg]; exact hcomp
    · exact ih g hg

theorem ancestors_inflight {comps : List Component} {fs : List DepthFrame} {c : Component}
    (h : Ancestors comps fs c) :
    ∀ f ∈ fs, ∃ ch, ch ∈ anaTargets comps f.comp ∧ Reaches comps ch c := by
  induction h with
  | nil => intro f hf; cases hf
  | cons f fs c done hcomp hdec hacc hrest ih =>
    intro g hg
    have hedge : c ∈ anaTargets comps f.comp := by
      rw [hdec]
      exact List.mem_append_right _ (by simp)
    rcases List.mem_cons.mp hg with hg | hg
    · rw [hg]
      exact ⟨c, hedge, Relation.ReflTransGen.refl⟩
    · obtain ⟨ch, hch, hr⟩ := ih g hg
      exact ⟨ch, hch, hr.trans (Relation.ReflTransGen.single hedge)⟩

theorem memoOK_insert {comps : List Component} {m : List (String × Int)} {c : Component}
    {d : Int} (hm : MemoOK comps m) (hc : c ∈ comps)
    (hd : (d = -1 ∧ ReachesCycle comps c) ∨ ∃ n : Nat, d = (n : Int) ∧ DepthIs comps c n) :
    MemoOK comps (mapInsert m (ckey c) d) := by
  intro k v hk
  by_cases hkc : k = ckey c
  · rw [hkc, mapLookup_mapInsert_self] at hk
    cases hk
    exact ⟨c, hc, hkc.symm, hd⟩
  · rw [mapLookup_mapInsert_ne m d hkc] at hk
    exact hm k v hk

theorem collapse_memoOK {comps : List Component} :
    ∀ (frames : List DepthFrame) (st : DState), MemoOK comps st.depths →
    (∀ f ∈ frames, f.comp ∈ comps ∧ ReachesCycle comps f.comp) →
    MemoOK comps (collapse frames st).depths := by
  intro frames
  induction frames with
  | nil => intro st hm _; exact hm
  | cons f fs ih =>
    intro st hm hall
    rw [collapse]
    exact ih _ (memoOK_insert hm (hall f (by simp)).1 (Or.inl ⟨rfl, (hall f (by simp)).2⟩))
      (fun g hg => hall g (by simp [hg]))

theorem collapse_calculating :
    ∀ (frames : List DepthFrame) (st : DState) (k : String),
    k ∈ (collapse frames st).calculating ↔
      k ∈ st.calculating ∧ k ∉ frames.map (fun f => ckey f.comp) := by
  intro frames
  induction frames with
  | nil => intro st k; simp [collapse]
  | cons f fs ih =>
    intro st k
    rw [collapse, ih]
    dsimp only
    rw [mem_setErase]
    simp only [List.map_cons, List.mem_cons]
    constructor
    · rintro ⟨⟨hk, hne⟩, hnot⟩
      exact ⟨hk, fun hc => hc.elim hne hnot⟩
    · rintro ⟨hk, hnot⟩
      exact ⟨⟨hk, fun he => hnot (Or.inl he)⟩, fun he => hnot (Or.inr he)⟩

theorem collapse_isSome_mono :
    ∀ (frames : List DepthFrame) (st : DState) (k : String),
    (mapLookup st.depths k).isSome → (mapLookup (collapse frames st).depths k).isSome := by
  intro frames
  induction frames with
  | nil => intro st k h; exact h
  | cons f fs ih =>
    intro st k h
    rw [collapse]
    exact ih _ k (mapLookup_mapInsert_isSome _ _ _ _ h)

theorem collapse_frames_isSome :
    ∀ (frames : List DepthFrame) (st : DState) (f : DepthFrame), f ∈ frames →
    (mapLookup (collapse frames st).depths (ckey f.comp)).isSome := by
  intro frames
  induction frames with
  | nil => intro st f hf; cases hf
  | cons g fs ih =>
    intro st f hf
    rcases List.mem_cons.mp hf with hf | hf
    · rw [hf, collapse]
      exact collapse_isSome_mono fs _ _ (by rw [mapLookup_mapInsert_self]; rfl)
    · rw [collapse]
      exact ih _ f hf

theorem maxAcc_nil (comps : List Component) : MaxAcc comps [] 0 := by
  refine ⟨le_refl 0, Or.inl rfl, ?_⟩
  intro t ht
  cases ht

theorem maxAcc_update {comps : List Component} {done : List Component} {m : Int}
    {t : Component} {n : Nat} (hacc : MaxAcc comps done m) (ht : DepthIs comps t n) :
    MaxAcc comps (done ++ [t]) (updateMax m (n : Int)) := by
  obtain ⟨h0, hlb, hub⟩ := hacc
  refine ⟨le_trans h0 (updateMax_ge m n), ?_, ?_⟩
  · rw [updateMax]
    by_cases h : (n : Int) ≥ m
    · rw [if_pos h]
      exact Or.inr ⟨t, by simp, n, ht, rfl⟩
    · rw [if_neg h]
      rcases hlb with hlb | ⟨u, hu, k, hk, hm⟩
      · exact Or.inl hlb
      · exact Or.inr ⟨u, List.mem_append_left _ hu, k, hk, hm⟩
  · intro u hu
    rcases List.mem_append.mp hu with hu | hu
    · obtain ⟨k, hk, hle⟩ := hub u hu
      exact ⟨k, hk, le_trans hle (updateMax_ge m n)⟩
    · have : u = t := by simpa using hu
      rw [this]
      exact ⟨n, ht, updateMax_ge_succ m n⟩

theorem pop_depthIs {comps : List Component} {c : Component} {done : List Component} {m : Int}
    (hdec : anaTargets comps c = done) (hacc : MaxAcc comps done m) :
    ∃ n : Nat, m = (n : Int) ∧ DepthIs comps c n := by
  obtain ⟨h0, hlb, hub⟩ := hacc
  refine ⟨m.toNat, (Int.toNat_of_nonneg h0).symm, ?_, ?_⟩
  · rcases hlb with hlb | ⟨t, ht, n, hn, hm⟩
    · rw [hlb]
      exact DepthGe.zero c
    · have hmem : t ∈ anaTargets comps c := by rw [hdec]; exact ht
      have : m.toNat = n + 1 := by omega
      rw [this]
      exact DepthGe.succ hmem hn.1
  · intro k hk
    cases hk with
    | zero => omega
    | succ hv h =>
      rename_i v n2
      have hvdone : v ∈ done := by rw [← hdec]; exact hv
      obtain ⟨nv, hnv, hle⟩ := hub v hvdone
      have := hnv.2 n2 h
      omega

theorem fresh_after_pop {comps : List Component} {st : DState} {key : String} {v : Int}
    (hkey : key ∈ st.calculating) :
    freshSet comps ⟨mapInsert st.depths key v, setErase st.calculating key⟩ =
      freshSet comps st := by
  apply Finset.ext
  intro k
  simp only [freshSet, Finset.mem_filter]
  constructor
  · rintro ⟨hmem, hnone, hcal⟩
    rw [mem_setErase] at hcal
    by_cases hk : k = key
    · rw [hk, mapLookup_mapInsert_self] at hnone
      cases hnone
    · rw [mapLookup_mapInsert_ne _ _ hk] at hnone
      refine ⟨hmem, hnone, ?_⟩
      intro hc
      exact hcal ⟨hc, hk⟩
  · rintro ⟨hmem, hnone, hcal⟩
    have hk : k ≠ key := by
      intro hk
      rw [hk] at hcal
      exact hcal hkey
    refine ⟨hmem, ?_, ?_⟩
    · rw [mapLookup_mapInsert_ne _ _ hk]
      exact hnone
    · rw [mem_setErase]
      intro hc
      exact hcal hc.1

theorem fresh_after_push {comps : List Component} {st : DState} {key : String} :
    freshSet comps ⟨st.depths, st.calculating ++ [key]⟩ =
      (freshSet comps st).erase key := by
  apply Finset.ext
  intro k
  simp only [freshSet, Finset.mem_filter, Finset.mem_erase]
  constructor
  · rintro ⟨hmem, hnone, hcal⟩
    simp only [List.mem_append, List.mem_singleton, not_or] at hcal
    exact ⟨hcal.2, hmem, hnone, hcal.1⟩
  · rintro ⟨hne, hmem, hnone, hcal⟩
    refine ⟨hmem, hnone, ?_⟩
    simp only [List.mem_append, List.mem_singleton, not_or]
    exact ⟨hcal, hne⟩

theorem mem_freshSet {comps : List Component} {st : DState} {t : Component}
    (ht : t ∈ comps) (hnone : mapLookup st.depths (ckey t) = none)
    (hcal : ckey t ∉ st.calculating) : ckey t ∈ freshSet comps st := by
  simp only [freshSet, Finset.mem_filter, List.mem_toFinset]
  exact ⟨List.mem_map_of_mem ckey ht, hnone, hcal⟩

theorem depthGo_master {comps : List Component} (hnd : (keys comps).Nodup) :
    ∀ (fuel : Nat) (frames : List DepthFrame) (st : DState),
      GoodStack comps frames → MemoOK comps st.depths →
      FrameKeys frames st.calculating → FreshFrames frames st.depths →
      depthMeasure comps frames st < fuel →
      ∃ st2, depthGo comps fuel frames st = some st2 ∧ MemoOK comps st2.depths ∧
        st2.calculating = [] ∧
        (∀ f ∈ frames, (mapLookup st2.depths (ckey f.comp)).isSome) ∧
        (∀ k, (mapLookup st.depths k).isSome → (mapLookup st2.depths k).isSome) := by
  intro fuel
  induction fuel with
  | zero =>
    intro frames st _ _ _ _ hm
    omega
  | succ fuel ih =>
    intro frames st hgs hmemo hfk hfresh hm
    cases frames with
    | nil =>
      refine ⟨st, rfl, hmemo, ?_, ?_, fun k h => h⟩
      · apply List.eq_nil_iff_forall_not_mem.mpr
        intro k hk
        have h2 := (hfk.2 k).mp hk
        simp at h2
      · intro g hg
        cases hg
    | cons f fs =>
      obtain ⟨hfc, ⟨done, hdec, hacc⟩, hanc⟩ := hgs
      cases hp : f.pending with
      | nil =>
        rw [hp, List.append_nil] at hdec
        obtain ⟨n, hmn, hdi⟩ := pop_depthIs hdec hacc
        have hkeyin : ckey f.comp ∈ st.calculating := by
          apply (hfk.2 (ckey f.comp)).mpr
          simp
        have hfs2 : freshSet comps
            ⟨mapInsert st.depths (ckey f.comp) f.maxDepth,
              setErase st.calculating (ckey f.comp)⟩ =
            freshSet comps st := fresh_after_pop hkeyin
        have hmemo2 : MemoOK comps (mapInsert st.depths (ckey f.comp) f.maxDepth) :=
          memoOK_insert hmemo hfc (Or.inr ⟨n, hmn, hdi⟩)
        cases fs with
        | nil =>
          have hfk2 : FrameKeys [] (setErase st.calculating (ckey f.comp)) := by
            refine ⟨List.nodup_nil, fun k => ?_⟩
            simp only [List.map_nil, List.not_mem_nil, iff_false]
            intro hk
            obtain ⟨hk1, hk2⟩ := mem_setErase.mp hk
            have h2 := (hfk.2 k).mp hk1
            simp at h2
            exact hk2 h2
          have hm2 : depthMeasure comps []
              ⟨mapInsert st.depths (ckey f.comp) f.maxDepth,
                setErase st.calculating (ckey f.comp)⟩ < fuel := by
            simp only [depthMeasure]
            rw [hfs2]
            simp only [depthMeasure] at hm
            simp only [List.map_cons, List.sum_cons, List.map_nil, List.sum_nil, hp,
              List.length_nil] at hm ⊢
            omega
          obtain ⟨st3, hrun, hm3, hc3, _, hmono3⟩ :=
            ih [] _ trivial hmemo2 hfk2 (fun g hg => absurd hg (List.not_mem_nil g)) hm2
          refine ⟨st3, ?_, hm3, hc3, ?_, ?_⟩
          · simp only [depthGo, hp]
            exact hrun
          · intro g hg
            have hgf : g = f := by simpa using hg
            rw [hgf]
            apply hmono3
            rw [mapLookup_mapInsert_self]
            rfl
          · intro k h
            exact hmono3 k (mapLookup_mapInsert_isSome _ _ _ _ h)
        | cons p rest =>
          cases hanc with
          | cons _ _ _ donep hcompp hdecp haccp hrestp =>
            have hdec2 : anaTargets comps p.comp = (donep ++ [f.comp]) ++ p.pending := by
              simp [hdecp]
            have hacc2 : MaxAcc comps (donep ++ [f.comp])
                (updateMax p.maxDepth f.maxDepth) := by
              rw [hmn]
              exact maxAcc_update haccp hdi
            have hgs2 : GoodStack comps
                (⟨p.comp, p.pending, updateMax p.maxDepth f.maxDepth⟩ :: rest) :=
              ⟨hcompp, ⟨donep ++ [f.comp], hdec2, hacc2⟩, hrestp⟩
            have hmapeq : (⟨p.comp, p.pending, updateMax p.maxDepth f.maxDepth⟩ :: rest).map
                (fun g => ckey g.comp) = (p :: rest).map (fun g => ckey g.comp) := rfl
            have hnd1 := hfk.1
            rw [List.map_cons, List.nodup_cons] at hnd1
            have hfk2 : FrameKeys (⟨p.comp, p.pending, updateMax p.maxDepth f.maxDepth⟩ :: rest)
                (setErase st.calculating (ckey f.comp)) := by
              refine ⟨?_, fun k => ?_⟩
              · rw [hmapeq]
                exact hnd1.2
              · rw [hmapeq, mem_setErase]
                constructor
                · rintro ⟨hk1, hk2⟩
                  have h3 := (hfk.2 k).mp hk1
                  rw [List.map_cons, List.mem_cons] at h3
                  exact h3.resolve_left hk2
                · intro hk
                  refine ⟨(hfk.2 k).mpr ?_, ?_⟩
                  · rw [List.map_cons, List.mem_cons]
                    exact Or.inr hk
                  · intro hke
                    rw [hke] at hk
                    exact hnd1.1 hk
            have hfresh2 : FreshFrames
                (⟨p.comp, p.pending, updateMax p.maxDepth f.maxDepth⟩ :: rest)
                (mapInsert st.depths (ckey f.comp) f.maxDepth) := by
              intro g hg
              have hgin : ckey g.comp ∈ (p :: rest).map (fun g2 => ckey g2.comp) := by
                rw [← hmapeq]
                exact List.mem_map_of_mem _ hg
              have hne : ckey g.comp ≠ ckey f.comp := fun he => hnd1.1 (he ▸ hgin)
              rw [mapLookup_mapInsert_ne _ _ hne]
              rcases List.mem_cons.mp hg with hge | hge
              · rw [hge]
                exact hfresh p (by simp)
              · exact hfresh g (by simp [hge])
            have hm2 : depthMeasure comps
                (⟨p.comp, p.pending, updateMax p.maxDepth f.maxDepth⟩ :: rest)
                ⟨mapInsert st.depths (ckey f.comp) f.maxDepth,
                  setErase st.calculating (ckey f.comp)⟩ < fuel := by
              simp only [depthMeasure]
              rw [hfs2]
              simp only [depthMeasure] at hm
              simp only [List.map_cons, List.sum_cons, hp, List.length_nil] at hm ⊢
              omega
            obtain ⟨st3, hrun, hm3, hc3, hfr3, hmono3⟩ :=
              ih _ _ hgs2 hmemo2 hfk2 hfresh2 hm2
            refine ⟨st3, ?_, hm3, hc3, ?_, ?_⟩
            · simp only [depthGo, hp]
              exact hrun
            · intro g hg
              rcases List.mem_cons.mp hg with hge | hge
              · rw [hge]
                apply hmono3
                rw [mapLookup_mapInsert_self]
                rfl
              · rcases List.mem_cons.mp hge with hgp | hgr
                · rw [hgp]
                  exact hfr3 ⟨p.comp, p.pending, updateMax p.maxDepth f.maxDepth⟩ (by simp)
                · exact hfr3 g (by simp [hgr])
            · intro k h
              exact hmono3 k (mapLookup_mapInsert_isSome _ _ _ _ h)
      | cons t ts =>
        rw [hp] at hdec
        have htedge : t ∈ anaTargets comps f.comp := by
          rw [hdec]
          exact List.mem_append_right _ (List.mem_cons_self t ts)
        have htmem : t ∈ comps := anaTargets_subset htedge
        cases hl : mapLookup st.depths (ckey t) with
        | some d =>
          obtain ⟨c', hc'in, hc'k, hcase⟩ := hmemo (ckey t) d hl
          have hct : c' = t := ckey_inj_of_nodup hnd hc'in htmem hc'k
          rw [hct] at hcase
          by_cases hd : d = -1
          · have hrc : ReachesCycle comps t := by
              rcases hcase with ⟨_, hrc⟩ | ⟨n, hdn, _⟩
              · exact hrc
              · omega
            obtain ⟨u, hru, hcyc⟩ := hrc
            have hall : ∀ g ∈ f :: fs, g.comp ∈ comps ∧ ReachesCycle comps g.comp := by
              intro g hg
              rcases List.mem_cons.mp hg with hge | hge
              · rw [hge]
                exact ⟨hfc, u, Relation.ReflTransGen.head htedge hru, hcyc⟩
              · obtain ⟨ch, hch, hr2⟩ := ancestors_inflight hanc g hge
                exact ⟨ancestors_mem hanc g hge, u,
                  Relation.ReflTransGen.head hch
                    (hr2.trans (Relation.ReflTransGen.head htedge hru)), hcyc⟩
            refine ⟨collapse (f :: fs) st, ?_, ?_, ?_, ?_, ?_⟩
            · simp only [depthGo, hp, hl]
              rw [if_pos hd]
            · exact collapse_memoOK _ _ hmemo hall
            · apply List.eq_nil_iff_forall_not_mem.mpr
              intro k hk
              have h2 := (collapse_calculating _ _ k).mp hk
              exact h2.2 ((hfk.2 k).mp h2.1)
            · intro g hg
              exact collapse_frames_isSome _ _ g hg
            · intro k h
              exact collapse_isSome_mono _ _ k h
          · have hnx : ∃ n : Nat, d = (n : Int) ∧ DepthIs comps t n := by
              rcases hcase with ⟨hd1, _⟩ | h2
              · exact absurd hd1 hd
              · exact h2
            obtain ⟨n, hdn, hdit⟩ := hnx
            have hdec2 : anaTargets comps f.comp = (done ++ [t]) ++ ts := by
              simp [hdec]
            have hacc2 : MaxAcc comps (done ++ [t]) (updateMax f.maxDepth d) := by
              rw [hdn]
              exact maxAcc_update hacc hdit
            have hgs2 : GoodStack comps (⟨f.comp, ts, updateMax f.maxDepth d⟩ :: fs) :=
              ⟨hfc, ⟨done ++ [t], hdec2, hacc2⟩, hanc⟩
            have hmapeq2 : (⟨f.comp, ts, updateMax f.maxDepth d⟩ :: fs).map
                (fun g => ckey g.comp) = (f :: fs).map (fun g => ckey g.comp) := rfl
            have hfk2 : FrameKeys (⟨f.comp, ts, updateMax f.maxDepth d⟩ :: fs)
                st.calculating := by
              refine ⟨?_, fun k => ?_⟩
              · rw [hmapeq2]
                exact hfk.1
              · rw [hmapeq2]
                exact hfk.2 k
            have hfresh2 : FreshFrames (⟨f.comp, ts, updateMax f.maxDepth d⟩ :: fs)
                st.depths := by
              intro g hg
              rcases List.mem_cons.mp hg with hge | hge
              · rw [hge]
                exact hfresh f (by simp)
              · exact hfresh g (by simp [hge])
            have hm2 : depthMeasure comps (⟨f.comp, ts, updateMax f.maxDepth d⟩ :: fs)
                st < fuel := by
              simp only [depthMeasure] at hm ⊢
              simp only [List.map_cons, List.sum_cons, hp, List.length_cons] at hm ⊢
              omega
            obtain ⟨st3, hrun, hm3, hc3, hfr3, hmono3⟩ :=
              ih _ _ hgs2 hmemo hfk2 hfresh2 hm2
            refine ⟨st3, ?_, hm3, hc3, ?_, hmono3⟩
            · simp only [depthGo, hp, hl]
              rw [if_neg hd]
              exact hrun
            · intro g hg
              rcases List.mem_cons.mp hg with hge | hge
              · rw [hge]
                exact hfr3 ⟨f.comp, ts, updateMax f.maxDepth d⟩ (by simp)
              · exact hfr3 g (by simp [hge])
        | none =>
          by_cases hc : ckey t ∈ st.calculating
          · have hkin := (hfk.2 (ckey t)).mp hc
            obtain ⟨g, hgmem, hgk⟩ := List.mem_map.mp hkin
            have hgin : g.comp ∈ comps := by
              rcases List.mem_cons.mp hgmem with hge | hge
              · rw [hge]
                exact hfc
              · exact ancestors_mem hanc g hge
            have hgt : g.comp = t := ckey_inj_of_nodup hnd hgin htmem hgk
            have hcyc : OnCycle comps t := by
              rcases List.mem_cons.mp hgmem with hge | hge
              · rw [hge] at hgt
                exact ⟨t, hgt ▸ htedge, Relation.ReflTransGen.refl⟩
              · obtain ⟨ch, hch, hr2⟩ := ancestors_inflight hanc g hge
                refine ⟨ch, ?_, hr2.trans (Relation.ReflTransGen.single htedge)⟩
                rw [← hgt]
                exact hch
            have hall : ∀ g2 ∈ f :: fs, g2.comp ∈ comps ∧ ReachesCycle comps g2.comp := by
              intro g2 hg2
              rcases List.mem_cons.mp hg2 with hge2 | hge2
              · rw [hge2]
                exact ⟨hfc, t, Relation.ReflTransGen.single htedge, hcyc⟩
              · obtain ⟨ch, hch, hr2⟩ := ancestors_inflight hanc g2 hge2
                exact ⟨ancestors_mem hanc g2 hge2, t,
                  Relation.ReflTransGen.head hch
                    (hr2.trans (Relation.ReflTransGen.single htedge)), hcyc⟩
            refine ⟨collapse (f :: fs) st, ?_, ?_, ?_, ?_, ?_⟩
            · simp only [depthGo, hp, hl]
              rw [if_pos hc]
            · exact collapse_memoOK _ _ hmemo hall
            · apply List.eq_nil_iff_forall_not_mem.mpr
              intro k hk
              have h2 := (collapse_calculating _ _ k).mp hk
              exact h2.2 ((hfk.2 k).mp h2.1)
            · intro g2 hg2
              exact collapse_frames_isSome _ _ g2 hg2
            · intro k h
              exact collapse_isSome_mono _ _ k h
          · have hgs2 : GoodStack comps
                (⟨t, anaTargets comps t, 0⟩ :: ⟨f.comp, ts, f.maxDepth⟩ :: fs) := by
              refine ⟨htmem, ⟨[], rfl, maxAcc_nil comps⟩, ?_⟩
              exact Ancestors.cons _ _ _ done hfc hdec hacc hanc
            have hktnew : ckey t ∉ (f :: fs).map (fun g => ckey g.comp) :=
              fun h2 => hc ((hfk.2 _).mpr h2)
            have hmapeq3 : (⟨t, anaTargets comps t, 0⟩ :: ⟨f.comp, ts, f.maxDepth⟩ :: fs).map
                (fun g => ckey g.comp) = ckey t :: (f :: fs).map (fun g => ckey g.comp) := rfl
            have hfk2 : FrameKeys
                (⟨t, anaTargets comps t, 0⟩ :: ⟨f.comp, ts, f.maxDepth⟩ :: fs)
                (st.calculating ++ [ckey t]) := by
              refine ⟨?_, fun k => ?_⟩
              · rw [hmapeq3, List.nodup_cons]
                exact ⟨hktnew, hfk.1⟩
              · rw [hmapeq3, List.mem_cons, List.mem_append, List.mem_singleton]
                constructor
                · rintro (hk | hk)
                  · exact Or.inr ((hfk.2 k).mp hk)
                  · exact Or.inl hk
                · rintro (hk | hk)
                  · exact Or.inr hk
                  · exact Or.inl ((hfk.2 k).mpr hk)
            have hfresh2 : FreshFrames
                (⟨t, anaTargets comps t, 0⟩ :: ⟨f.comp, ts, f.maxDepth⟩ :: fs)
                st.depths := by
              intro g hg
              rcases List.mem_cons.mp hg with hge | hge
              · rw [hge]
                exact hl
              · rcases List.mem_cons.mp hge with hge2 | hge2
                · rw [hge2]
                  exact hfresh f (by simp)
                · exact hfresh g (by simp [hge2])
            have htfresh : ckey t ∈ freshSet comps st := mem_freshSet htmem hl hc
            have hfs3 : freshSet comps ⟨st.depths, st.calculating ++ [ckey t]⟩ =
                (freshSet comps st).erase (ckey t) := fresh_after_push
            have hcard : ((freshSet comps st).erase (ckey t)).card =
                (freshSet comps st).card - 1 := Finset.card_erase_of_mem htfresh
            have hpos : 0 < (freshSet comps st).card := Finset.card_pos.mpr ⟨_, htfresh⟩
            have htb : (anaTargets comps t).length ≤ maxTargets comps :=
              maxTargets_bound htmem
            have hmul : (maxTargets comps + 2) * (freshSet comps st).card =
                (maxTargets comps + 2) * ((freshSet comps st).card - 1) +
                  (maxTargets comps + 2) := by
              have h1 : (freshSet comps st).card - 1 + 1 = (freshSet comps st).card :=
                Nat.succ_pred_eq_of_pos hpos
              rw [← h1, Nat.mul_succ, Nat.add_sub_cancel]
            have hm2 : depthMeasure comps
                (⟨t, anaTargets comps t, 0⟩ :: ⟨f.comp, ts, f.maxDepth⟩ :: fs)
                ⟨st.depths, st.calculating ++ [ckey t]⟩ < fuel := by
              simp only [depthMeasure]
              rw [hfs3, hcard]
              simp only [depthMeasure] at hm
              simp only [List.map_cons, List.sum_cons, hp, List.length_cons] at hm ⊢
              omega
            obtain ⟨st3, hrun, hm3, hc3, hfr3, hmono3⟩ :=
              ih _ ⟨st.depths, st.calculating ++ [ckey t]⟩ hgs2 hmemo hfk2 hfresh2 hm2
            refine ⟨st3, ?_, hm3, hc3, ?_, ?_⟩
            · simp only [depthGo, hp, hl]
              rw [if_neg hc]
              exact hrun
            · intro g hg
              rcases List.mem_cons.mp hg with hge | hge
              · rw [hge]
                exact hfr3 ⟨f.comp, ts, f.maxDepth⟩ (by simp)
              · exact hfr3 g (by simp [hge])
            · intro k h
              exact hmono3 k h

theorem depthMeasure_lt_fuel {comps : List Component} {c : Component} (hcin : c ∈ comps)
    (st2 : DState) :
    depthMeasure comps [⟨c, anaTargets comps c, 0⟩] st2 < depthFuel comps := by
  have h1 : (freshSet comps st2).card ≤ comps.length := by
    calc (freshSet comps st2).card ≤ (keys comps).toFinset.card :=
          Finset.card_le_card (Finset.filter_subset _ _)
      _ ≤ (keys comps).length := (keys comps).toFinset_card_le
      _ = comps.length := by rw [keys, List.length_map]
  have h2 : (anaTargets comps c).length ≤ maxTargets comps := maxTargets_bound hcin
  have h3 : (maxTargets comps + 2) * (freshSet comps st2).card ≤
      (maxTargets comps + 2) * comps.length := Nat.mul_le_mul_left _ h1
  have h4 : (maxTargets comps + 2) * (comps.length + 1) =
      (maxTargets comps + 2) * comps.length + (maxTargets comps + 2) := by
    rw [Nat.mul_succ]
  simp only [depthMeasure, depthFuel, List.map_cons, List.sum_cons, List.map_nil,
    List.sum_nil]
  omega

theorem calcDepthRoots_master {comps : List Component} (hnd : (keys comps).Nodup) :
    ∀ (roots : List Component) (st : DState), (∀ c ∈ roots, c ∈ comps) →
      MemoOK comps st.depths → st.calculating = [] →
      ∃ st2, calcDepthRoots comps (depthFuel comps) roots st = some st2 ∧
        MemoOK comps st2.depths ∧ st2.calculating = [] ∧
        (∀ c ∈ roots, (mapLookup st2.depths (ckey c)).isSome) ∧
        (∀ k, (mapLookup st.depths k).isSome → (mapLookup st2.depths k).isSome) := by
  intro roots
  induction roots with
  | nil =>
    intro st _ hmemo hcal
    exact ⟨st, rfl, hmemo, hcal, fun c hc => absurd hc (List.not_mem_nil c), fun k h => h⟩
  | cons c cs ihr =>
    intro st hsub hmemo hcal
    cases hl : mapLookup st.depths (ckey c) with
    | some d =>
      obtain ⟨st2, hrun, hm2, hc2, hroots2, hmono2⟩ :=
        ihr st (fun x hx => hsub x (by simp [hx])) hmemo hcal
      refine ⟨st2, ?_, hm2, hc2, ?_, hmono2⟩
      · simp only [calcDepthRoots, hl]
        exact hrun
      · intro x hx
        rcases List.mem_cons.mp hx with hxe | hxe
        · rw [hxe]
          apply hmono2
          rw [hl]
          rfl
        · exact hroots2 x hxe
    | none =>
      have hcin : c ∈ comps := hsub c (by simp)
      have hnc : ckey c ∉ st.calculating := by
        rw [hcal]
        exact List.not_mem_nil _
      have hgs : GoodStack comps [⟨c, anaTargets comps c, 0⟩] :=
        ⟨hcin, ⟨[], rfl, maxAcc_nil comps⟩, Ancestors.nil c⟩
      have hfk : FrameKeys [⟨c, anaTargets comps c, 0⟩] (st.calculating ++ [ckey c]) := by
        refine ⟨by simp, fun k => ?_⟩
        rw [hcal]
        simp
      have hfreshf : FreshFrames [⟨c, anaTargets comps c, 0⟩] st.depths := by
        intro g hg
        have hge : g = ⟨c, anaTargets comps c, 0⟩ := by simpa using hg
        rw [hge]
        exact hl
      obtain ⟨st2, hrun, hm2, hc2, hfr2, hmono2⟩ :=
        depthGo_master hnd (depthFuel comps) [⟨c, anaTargets comps c, 0⟩]
          ⟨st.depths, st.calculating ++ [ckey c]⟩ hgs hmemo hfk hfreshf
          (depthMeasure_lt_fuel hcin _)
      obtain ⟨st3, hrun3, hm3, hc3, hroots3, hmono3⟩ :=
        ihr st2 (fun x hx => hsub x (by simp [hx])) hm2 hc2
      refine ⟨st3, ?_, hm3, hc3, ?_, ?_⟩
      · simp only [calcDepthRoots, hl]
        rw [if_neg hnc, hrun]
        exact hrun3
      · intro x hx
        rcases List.mem_cons.mp hx with hxe | hxe
        · rw [hxe]
          apply hmono3
          exact hfr2 ⟨c, anaTargets comps c, 0⟩ (by simp)
        · exact hroots3 x hxe
      · intro k h
        exact hmono3 k (hmono2 k h)

/-- Claim C8: `DependencyAnalyzer.CalculateDependencyDepth` terminates on
every input (with the stated fuel) and assigns every component (with
pairwise-distinct identity keys, the data model's unique-identity
assumption) either the length of the longest dependency chain beneath it,
or the sentinel `-1` exactly when some dependency chain from the component
reaches a cycle — the sentinel is propagated upward to every component
whose dependencies reach the cycle instead of looping forever. -/
theorem calculateDependencyDepth_correct {comps : List Component}
    (hnd : (keys comps).Nodup) :
    ∃ m, CalculateDependencyDepth comps (depthFuel comps) = some m ∧
      ∀ c ∈ comps, ∃ d, mapLookup m (ckey c) = some d ∧
        ((d = -1 ∧ ReachesCycle comps c) ∨
          ∃ n : Nat, d = (n : Int) ∧ DepthIs comps c n) ∧
        (ReachesCycle comps c → d = -1) := by
  have hmemo0 : MemoOK comps ([] : List (String × Int)) := by
    intro k d h
    simp [mapLookup] at h
  obtain ⟨st2, hrun, hm2, _, hroots, _⟩ :=
    calcDepthRoots_master hnd comps ⟨[], []⟩ (fun c hc => hc) hmemo0 rfl
  refine ⟨st2.depths, ?_, ?_⟩
  · rw [CalculateDependencyDepth, hrun]
    rfl
  · intro c hc
    obtain ⟨d, hd⟩ := Option.isSome_iff_exists.mp (hroots c hc)
    obtain ⟨c', hc'in, hkk, hcase⟩ := hm2 (ckey c) d hd
    have hcc : c' = c := ckey_inj_of_nodup hnd hc'in hc hkk
    rw [hcc] at hcase
    refine ⟨d, hd, hcase, ?_⟩
    intro hrc
    rcases hcase with ⟨hd1, _⟩ | ⟨n, hdn, hdi⟩
    · exact hd1
    · exact absurd hdi (reachesCycle_not_depthIs hrc n)

theorem calculateDependencyDepth_correct_witness :
    (keys [(⟨"A", "A", "test", "", [], [], false, false⟩ : Component),
        ⟨"B", "B", "test", "", [], [⟨"SA", "A", ""⟩], false, false⟩]).Nodup ∧
    ∃ m, CalculateDependencyDepth
        [(⟨"A", "A", "test", "", [], [], false, false⟩ : Component),
          ⟨"B", "B", "test", "", [], [⟨"SA", "A", ""⟩], false, false⟩]
        (depthFuel
          [(⟨"A", "A", "test", "", [], [], false, false⟩ : Component),
            ⟨"B", "B", "test", "", [], [⟨"SA", "A", ""⟩], false, false⟩]) = some m ∧
      ∀ c ∈ [(⟨"A", "A", "test", "", [], [], false, false⟩ : Component),
          ⟨"B", "B", "test", "", [], [⟨"SA", "A", ""⟩], false, false⟩],
        ∃ d, mapLookup m (ckey c) = some d ∧
          ((d = -1 ∧ ReachesCycle
              [(⟨"A", "A", "test", "", [], [], false, false⟩ : Component),
                ⟨"B", "B", "test", "", [], [⟨"SA", "A", ""⟩], false, false⟩] c) ∨
            ∃ n : Nat, d = (n : Int) ∧ DepthIs
              [(⟨"A", "A", "test", "", [], [], false, false⟩ : Component),
                ⟨"B", "B", "test", "", [], [⟨"SA", "A", ""⟩], false, false⟩] c n) ∧
          (ReachesCycle
              [(⟨"A", "A", "test", "", [], [], false, false⟩ : Component),
                ⟨"B", "B", "test", "", [], [⟨"SA", "A", ""⟩], false, false⟩] c → d = -1) :=
  ⟨by decide, calculateDependencyDepth_correct (by decide)⟩
